import Mathlib

/-!
Verification of the gron statement model against its specification.

The repository ships only `main.go` (the CLI shell: the `gron` and `ungron`
actions, exit codes, and the root-unwrap post-processing step).  The core
engines it calls — the flattener (`statementsFromJSON`), the statement
parser (`statementFromString`), the merger (`statements.toInterface`) and
the sort comparison — live in source files that are not part of the
provided tree, so they are modelled here from the specification
(sections 4.1–4.5, 6 and 7 of the design document), while everything that
`main.go` itself decides (root unwrap, exit-code routing, the
write-only-on-success shape of `ungron`) is embedded from that file.
-/

namespace Gron

/-! ## Exit codes, from `main.go` (iota block). -/

def exitOK : Nat := 0
def exitOpenFile : Nat := 1
def exitReadInput : Nat := 2
def exitFormStatements : Nat := 3
def exitFetchURL : Nat := 4
def exitParseStatements : Nat := 5
def exitJSONEncode : Nat := 6

/-! ## Data model

Modelled from the spec: §3.  A `Value` is the closed tagged union over the
six JSON kinds; numbers keep their exact textual form ("Number(exact
textual or numeric form)"); mappings are ordered key/value lists with
unique keys (uniqueness is the `wfV` well-formedness predicate below).
-/

/-- Modelled from the spec: a JSON value (§3 Value Model). -/
inductive Value where
  | null
  | bool (b : Bool)
  | num (s : String)
  | str (s : String)
  | arr (xs : List Value)
  | obj (fs : List (String × Value))

/-- Modelled from the spec: a path token after the root token (§3).
The root token itself is implicit: it heads every statement, all root
tokens are interchangeable, and the path stored in a `Statement` is the
token sequence that follows it. -/
inductive Tok where
  | key (k : String)
  | index (i : Nat)
deriving DecidableEq

/-- Modelled from the spec: the terminal value of a statement (§3):
an empty-container marker or one scalar. -/
inductive TVal where
  | emptyObj
  | emptyArr
  | null
  | bool (b : Bool)
  | num (s : String)
  | str (s : String)
deriving DecidableEq

/-- Modelled from the spec: a statement is a path plus a terminal value
(§3).  The leading root token is implicit (see `Tok`). -/
structure Statement where
  path : List Tok
  val : TVal
deriving DecidableEq

/-! ## Character classes and decimal digits (wire format, spec §4.2/§4.3). -/

/-- Whitespace tolerated around statement parts (spec §4.3). -/
def isWS (c : Char) : Bool := c = ' ' || c = '\t' || c = '\r' || c = '\n'

/-- First character of a bare identifier: letter or underscore (spec §4.2). -/
def isBareStart (c : Char) : Bool := c.isAlpha || c = '_'

/-- Subsequent character of a bare identifier: letter, digit or underscore. -/
def isBareChar (c : Char) : Bool := c.isAlphanum || c = '_'

/-- Decimal digit character for index tokens and numbers. -/
def isDigitC (c : Char) : Bool := c.isDigit

/-- Decimal rendering of a natural number, no leading zeros, no sign
(spec §4.2, IndexToken rendering). -/
def natToChars (n : Nat) : List Char :=
  if h : n < 10 then [Char.ofNat (48 + n)]
  else natToChars (n / 10) ++ [Char.ofNat (48 + n % 10)]
decreasing_by exact Nat.div_lt_self (by omega) (by omega)

/-- Numeric reading of a run of decimal digits (spec §4.3, IndexToken). -/
def digitsToNat (ds : List Char) : Nat :=
  ds.foldl (fun a c => a * 10 + (c.toNat - 48)) 0

theorem digitChar_isDigit {d : Nat} (h : d < 10) : isDigitC (Char.ofNat (48 + d)) = true := by
  unfold isDigitC
  interval_cases d <;> decide

theorem digitChar_toNat {d : Nat} (h : d < 10) : (Char.ofNat (48 + d)).toNat = 48 + d := by
  interval_cases d <;> decide

theorem natToChars_ne_nil (n : Nat) : natToChars n ≠ [] := by
  unfold natToChars
  split <;> simp

theorem natToChars_all_digits (n : Nat) : ∀ c ∈ natToChars n, isDigitC c = true := by
  induction n using Nat.strong_induction_on with
  | _ n IH =>
    unfold natToChars
    split
    · intro c hc
      rw [List.mem_singleton] at hc
      subst hc
      exact digitChar_isDigit (by omega)
    · have hdec : n / 10 < n := by omega
      intro c hc
      rw [List.mem_append] at hc
      cases hc with
      | inl h1 => exact IH (n / 10) hdec c h1
      | inr h2 =>
        rw [List.mem_singleton] at h2
        subst h2
        exact digitChar_isDigit (Nat.mod_lt _ (by omega))

theorem digitsToNat_append_digit (ds : List Char) (c : Char) :
    digitsToNat (ds ++ [c]) = digitsToNat ds * 10 + (c.toNat - 48) := by
  unfold digitsToNat
  rw [List.foldl_append]
  rfl

theorem digitsToNat_natToChars (n : Nat) : digitsToNat (natToChars n) = n := by
  induction n using Nat.strong_induction_on with
  | _ n IH =>
    unfold natToChars
    split
    · simp only [digitsToNat, List.foldl_cons, List.foldl_nil]
      rw [digitChar_toNat (by omega)]
      omega
    · have hdec : n / 10 < n := by omega
      rw [digitsToNat_append_digit, IH (n / 10) hdec,
        digitChar_toNat (Nat.mod_lt _ (by omega))]
      omega

/-- Head of a decimal rendering is a digit (hence not a quote or bracket). -/
theorem natToChars_head_digit (n : Nat) :
    ∃ c cs, natToChars n = c :: cs ∧ isDigitC c = true := by
  have hne := natToChars_ne_nil n
  have hall := natToChars_all_digits n
  cases h : natToChars n with
  | nil => exact absurd h hne
  | cons c cs =>
    refine ⟨c, cs, rfl, ?_⟩
    exact hall c (h ▸ List.mem_cons_self c cs)

/-! ## JSON string escaping (spec §4.2: "JSON string-escaping rules") and
the matching unescaping inside the statement parser (spec §4.3). -/

/-- Lower-case hexadecimal digit for a value below 16. -/
def hexCh (n : Nat) : Char :=
  if n < 10 then Char.ofNat (48 + n) else Char.ofNat (87 + n)

/-- Four-digit hexadecimal escape of a control character code. -/
def ctrlEscape (n : Nat) : List Char :=
  '\\' :: 'u' :: '0' :: '0' :: [hexCh (n / 16), hexCh (n % 16)]

/-- Value of a hexadecimal digit character, if it is one. -/
def hexVal (c : Char) : Option Nat :=
  if 48 ≤ c.toNat ∧ c.toNat ≤ 57 then some (c.toNat - 48)
  else if 97 ≤ c.toNat ∧ c.toNat ≤ 102 then some (c.toNat - 87)
  else if 65 ≤ c.toNat ∧ c.toNat ≤ 70 then some (c.toNat - 55)
  else none

/-- Modelled from the spec: JSON escaping of one character — quote and
backslash get a backslash escape, control characters a `\u00XX` escape,
anything else stands for itself. -/
def escChar (c : Char) : List Char :=
  if c = '"' then ['\\', '"']
  else if c = '\\' then ['\\', '\\']
  else if c.toNat < 32 then ctrlEscape c.toNat
  else [c]

/-- JSON escaping of a character sequence. -/
def escChars (cs : List Char) : List Char := cs.flatMap escChar

/-- Single-character escape codes accepted after a backslash. -/
def unescCode (e : Char) : Option Char :=
  if e = '"' then some '"'
  else if e = '\\' then some '\\'
  else if e = '/' then some '/'
  else if e = 'n' then some '\n'
  else if e = 't' then some '\t'
  else if e = 'r' then some '\r'
  else if e = 'b' then some (Char.ofNat 8)
  else if e = 'f' then some (Char.ofNat 12)
  else none

/-- Modelled from the spec: body of a JSON-quoted string, entered after the
opening quote; returns the unescaped content and the number of input
characters consumed, including the closing quote (spec §4.3,
`json-string`).  Raw control characters, lone surrogates and unknown
escapes are malformed. -/
def parseJString (cs : List Char) : Option (List Char × Nat) :=
  match cs with
  | [] => none
  | c :: rest =>
    if c = '"' then some ([], 1)
    else if c = '\\' then
      match rest with
      | [] => none
      | e :: rest2 =>
        if e = 'u' then
          match rest2 with
          | h1 :: h2 :: h3 :: h4 :: rest3 =>
            match hexVal h1, hexVal h2, hexVal h3, hexVal h4 with
            | some a, some b, some x, some d =>
              let n := ((a * 16 + b) * 16 + x) * 16 + d
              if n < 55296 ∨ 57343 < n then
                (parseJString rest3).map (fun p => (Char.ofNat n :: p.1, p.2 + 6))
              else none
            | _, _, _, _ => none
          | _ => none
        else
          match unescCode e with
          | some c2 => (parseJString rest2).map (fun p => (c2 :: p.1, p.2 + 2))
          | none => none
    else if c.toNat < 32 then none
    else (parseJString rest).map (fun p => (c :: p.1, p.2 + 1))
termination_by cs.length
decreasing_by all_goals (simp_all; try omega)

theorem hexVal_hexCh {d : Nat} (h : d < 16) :
    hexVal (hexCh d) = some d := by
  interval_cases d <;> decide

/-- Round trip: the string-body parser undoes JSON escaping and stops at
the closing quote, whatever follows it. -/
theorem parseJString_esc (s : List Char) :
    ∀ rest, parseJString (escChars s ++ '"' :: rest) =
      some (s, (escChars s).length + 1) := by
  induction s with
  | nil =>
    intro rest
    rw [escChars, List.flatMap_nil, List.nil_append, parseJString.eq_def]
    simp
  | cons c s' ih =>
    intro rest
    have hesc : escChars (c :: s') = escChar c ++ escChars s' := by
      rw [escChars, escChars, List.flatMap_cons]
    by_cases hq : c = '"'
    · subst hq
      have h1 : escChar '"' = ['\\', '"'] := by decide
      rw [hesc, h1]
      simp only [List.cons_append, List.nil_append]
      rw [parseJString.eq_def]
      simp only [reduceIte, reduceCtorEq, unescCode, ih rest, Option.map_some]
      simp [h1]
    · by_cases hb : c = '\\'
      · subst hb
        have h1 : escChar '\\' = ['\\', '\\'] := by decide
        rw [hesc, h1]
        simp only [List.cons_append, List.nil_append]
        rw [parseJString.eq_def]
        simp only [reduceIte, reduceCtorEq, unescCode, ih rest, Option.map_some]
        simp [h1]
      · by_cases hctl : c.toNat < 32
        · have h1 : escChar c =
              '\\' :: 'u' :: '0' :: '0' :: [hexCh (c.toNat / 16), hexCh (c.toNat % 16)] := by
            rw [escChar, if_neg hq, if_neg hb, if_pos hctl]
            rfl
          rw [hesc, h1]
          simp only [List.cons_append, List.nil_append]
          rw [parseJString.eq_def]
          simp only [reduceIte]
          have hv0 : hexVal '0' = some 0 := by decide
          have hvh : hexVal (hexCh (c.toNat / 16)) = some (c.toNat / 16) :=
            hexVal_hexCh (by omega)
          have hvl : hexVal (hexCh (c.toNat % 16)) = some (c.toNat % 16) :=
            hexVal_hexCh (by omega)
          rw [hv0, hvh, hvl]
          have hn : ∀ k : Nat, ((0 * 16 + 0) * 16 + k / 16) * 16 + k % 16 = k :=
            fun k => by omega
          simp only [hn]
          rw [if_pos (Or.inl (by omega : c.toNat < 55296))]
          rw [ih rest]
          simp [Char.ofNat_toNat, h1]
        · have h1 : escChar c = [c] := by
            rw [escChar, if_neg hq, if_neg hb, if_neg hctl]
          rw [hesc, h1]
          simp only [List.cons_append, List.nil_append]
          rw [parseJString.eq_def]
          simp only [if_neg hq, if_neg hb, if_neg hctl, ih rest, Option.map_some]
          simp [h1]

/-! ## Maximal-run lemmas used to take identifiers, digit runs and number
text off the front of a line. -/

theorem takeWhile_append_stop {α : Type} (p : α → Bool) :
    ∀ (xs ys : List α), (∀ x ∈ xs, p x = true) →
      (∀ y, ys.head? = some y → p y = false) →
      (xs ++ ys).takeWhile p = xs ∧ (xs ++ ys).dropWhile p = ys := by
  intro xs
  induction xs with
  | nil =>
    intro ys _ hys
    cases ys with
    | nil => simp
    | cons y ys' =>
      have := hys y rfl
      simp [List.takeWhile_cons, List.dropWhile_cons, this]
  | cons x xs' ih =>
    intro ys hxs hys
    have hx : p x = true := hxs x (List.mem_cons_self x xs')
    have := ih ys (fun a ha => hxs a (List.mem_cons_of_mem x ha)) hys
    simp [List.takeWhile_cons, List.dropWhile_cons, hx, this.1, this.2]

/-! ## JSON number grammar (spec §4.2 "minimal round-trippable decimal
form" / §4.3 "standard JSON scalar grammar").  A `Value.num` stores the
exact number text; well-formed values carry text in this grammar. -/

/-- Characters that can occur in a JSON number literal. -/
def isNumChar (c : Char) : Bool :=
  c.isDigit || c = '-' || c = '+' || c = '.' || c = 'e' || c = 'E'

/-- Integer part after an optional sign: `0` or a nonzero digit followed
by digits.  Returns the remaining input. -/
def jnInt (cs : List Char) : Option (List Char) :=
  match cs with
  | [] => none
  | c :: r =>
    if c = '0' then some r
    else if c.isDigit then some (r.dropWhile isDigitC)
    else none

/-- Optional fraction part: `.` followed by one or more digits. -/
def jnFrac (cs : List Char) : Option (List Char) :=
  match cs with
  | [] => some []
  | c :: r =>
    if c = '.' then
      if (r.takeWhile isDigitC).isEmpty then none else some (r.dropWhile isDigitC)
    else some (c :: r)

/-- Optional exponent part: `e`/`E`, optional sign, one or more digits. -/
def jnExp (cs : List Char) : Option (List Char) :=
  match cs with
  | [] => some []
  | c :: r =>
    if c = 'e' || c = 'E' then
      let r2 := match r with
        | [] => ([] : List Char)
        | s :: r' => if s = '+' || s = '-' then r' else s :: r'
      if (r2.takeWhile isDigitC).isEmpty then none else some (r2.dropWhile isDigitC)
    else some (c :: r)

/-- Modelled from the spec: whole-input check against the JSON number
grammar `-? int frac? exp?` (spec §4.3). -/
def isJsonNumber (cs : List Char) : Bool :=
  let cs1 := match cs with
    | c :: r => if c = '-' then r else c :: r
    | [] => []
  match jnInt cs1 with
  | none => false
  | some r1 =>
    match jnFrac r1 with
    | none => false
    | some r2 =>
      match jnExp r2 with
      | none => false
      | some r3 => r3.isEmpty

theorem dropWhile_sub_numChar (r : List Char) :
    ∃ pre, r = pre ++ r.dropWhile isDigitC ∧ ∀ c ∈ pre, isNumChar c = true := by
  refine ⟨r.takeWhile isDigitC, (List.takeWhile_append_dropWhile isDigitC r).symm, ?_⟩
  intro c hc
  have := List.mem_takeWhile_imp hc
  simp [isNumChar, isDigitC] at this ⊢
  simp [this]

theorem jnInt_consumed {cs r : List Char} (h : jnInt cs = some r) :
    ∃ pre, cs = pre ++ r ∧ (∀ c ∈ pre, isNumChar c = true) ∧
      ∃ d pre', pre = d :: pre' ∧ isDigitC d = true := by
  match cs with
  | [] => simp [jnInt] at h
  | c :: rest =>
    rw [jnInt] at h
    by_cases h0 : c = '0'
    · rw [if_pos h0] at h
      cases h
      exact ⟨[c], rfl, by simp [isNumChar, h0], c, [], rfl, by simp [isDigitC, h0]⟩
    · rw [if_neg h0] at h
      by_cases hd : c.isDigit
      · rw [if_pos hd] at h
        cases h
        obtain ⟨pre, heq, hall⟩ := dropWhile_sub_numChar rest
        refine ⟨c :: pre, by rw [List.cons_append, ← heq], ?_, c, pre, rfl, hd⟩
        intro a ha
        rcases List.mem_cons.mp ha with h1 | h1
        · subst h1; simp [isNumChar, hd]
        · exact hall a h1
      · rw [if_neg hd] at h
        cases h

theorem jnFrac_consumed {cs r : List Char} (h : jnFrac cs = some r) :
    ∃ pre, cs = pre ++ r ∧ ∀ c ∈ pre, isNumChar c = true := by
  match cs with
  | [] =>
    rw [jnFrac] at h
    cases h
    exact ⟨[], rfl, by simp⟩
  | c :: rest =>
    rw [jnFrac] at h
    by_cases hdot : c = '.'
    · rw [if_pos hdot] at h
      by_cases hemp : (rest.takeWhile isDigitC).isEmpty
      · rw [if_pos hemp] at h; cases h
      · rw [if_neg hemp] at h
        cases h
        obtain ⟨pre, heq, hall⟩ := dropWhile_sub_numChar rest
        refine ⟨c :: pre, by rw [List.cons_append, ← heq], ?_⟩
        intro a ha
        rcases List.mem_cons.mp ha with h1 | h1
        · subst h1; simp [isNumChar, hdot]
        · exact hall a h1
    · rw [if_neg hdot] at h
      cases h
      exact ⟨[], rfl, by simp⟩

theorem jnExp_consumed {cs r : List Char} (h : jnExp cs = some r) :
    ∃ pre, cs = pre ++ r ∧ ∀ c ∈ pre, isNumChar c = true := by
  match cs with
  | [] =>
    rw [jnExp.eq_def] at h
    cases h
    exact ⟨[], rfl, by simp⟩
  | c :: rest =>
    rw [jnExp.eq_def] at h
    simp only at h
    by_cases he : (c = 'e' || c = 'E')
    · rw [if_pos he] at h
      match rest with
      | [] =>
        simp only at h
        by_cases hemp : (List.takeWhile isDigitC []).isEmpty
        · rw [if_pos hemp] at h; cases h
        · simp at hemp
      | s :: r' =>
        simp only at h
        by_cases hs : (s = '+' || s = '-')
        · rw [if_pos hs] at h
          by_cases hemp : (r'.takeWhile isDigitC).isEmpty
          · rw [if_pos hemp] at h; cases h
          · rw [if_neg hemp] at h
            cases h
            obtain ⟨pre, heq, hall⟩ := dropWhile_sub_numChar r'
            refine ⟨c :: s :: pre, by rw [List.cons_append, List.cons_append, ← heq], ?_⟩
            intro a ha
            rcases List.mem_cons.mp ha with h1 | h1
            · subst h1
              rcases Bool.or_eq_true _ _ |>.mp he with h2 | h2 <;>
                · have h3 := of_decide_eq_true h2
                  subst h3
                  decide
            rcases List.mem_cons.mp h1 with h2 | h2
            · subst h2
              rcases Bool.or_eq_true _ _ |>.mp hs with h3 | h3 <;>
                · have h4 := of_decide_eq_true h3
                  subst h4
                  decide
            · exact hall a h2
        · rw [if_neg hs] at h
          by_cases hemp : ((s :: r').takeWhile isDigitC).isEmpty
          · rw [if_pos hemp] at h; cases h
          · rw [if_neg hemp] at h
            cases h
            obtain ⟨pre, heq, hall⟩ := dropWhile_sub_numChar (s :: r')
            refine ⟨c :: pre, by rw [List.cons_append, ← heq], ?_⟩
            intro a ha
            rcases List.mem_cons.mp ha with h1 | h1
            · subst h1
              rcases Bool.or_eq_true _ _ |>.mp he with h2 | h2 <;>
                · have h3 := of_decide_eq_true h2
                  subst h3
                  decide
            · exact hall a h1
    · rw [if_neg he] at h
      cases h
      exact ⟨[], rfl, by simp⟩

/-- A well-formed JSON number text consists of number characters only and
starts with a minus sign or a digit. -/
theorem isJsonNumber_shape {cs : List Char} (h : isJsonNumber cs = true) :
    (∀ c ∈ cs, isNumChar c = true) ∧
      ∃ c cs', cs = c :: cs' ∧ (c = '-' ∨ c.isDigit = true) := by
  rw [isJsonNumber.eq_def] at h
  match cs with
  | [] =>
    simp only at h
    cases h1 : jnInt [] with
    | none => rw [h1] at h; cases h
    | some r1 => simp [jnInt] at h1
  | c :: rest =>
    simp only at h
    by_cases hminus : c = '-'
    · rw [if_pos hminus] at h
      cases h1 : jnInt rest with
      | none => rw [h1] at h; cases h
      | some r1 =>
        rw [h1] at h
        simp only at h
        cases h2 : jnFrac r1 with
        | none => rw [h2] at h; cases h
        | some r2 =>
          rw [h2] at h
          simp only at h
          cases h3 : jnExp r2 with
          | none => rw [h3] at h; cases h
          | some r3 =>
            rw [h3] at h
            simp only at h
            have hr3 : r3 = [] := by simpa using h
            subst hr3
            obtain ⟨p1, he1, ha1, _⟩ := jnInt_consumed h1
            obtain ⟨p2, he2, ha2⟩ := jnFrac_consumed h2
            obtain ⟨p3, he3, ha3⟩ := jnExp_consumed h3
            refine ⟨?_, c, rest, rfl, Or.inl hminus⟩
            intro a ha
            rcases List.mem_cons.mp ha with h4 | h4
            · subst h4; simp [isNumChar, hminus]
            · rw [he1, he2, he3] at h4
              simp only [List.append_nil, List.mem_append] at h4
              rcases h4 with h5 | h5 | h5
              · exact ha1 a h5
              · exact ha2 a h5
              · exact ha3 a h5
    · rw [if_neg hminus] at h
      cases h1 : jnInt (c :: rest) with
      | none => rw [h1] at h; cases h
      | some r1 =>
        rw [h1] at h
        simp only at h
        cases h2 : jnFrac r1 with
        | none => rw [h2] at h; cases h
        | some r2 =>
          rw [h2] at h
          simp only at h
          cases h3 : jnExp r2 with
          | none => rw [h3] at h; cases h
          | some r3 =>
            rw [h3] at h
            simp only at h
            have hr3 : r3 = [] := by simpa using h
            subst hr3
            obtain ⟨p1, he1, ha1, d, p1', hp1, hd⟩ := jnInt_consumed h1
            obtain ⟨p2, he2, ha2⟩ := jnFrac_consumed h2
            obtain ⟨p3, he3, ha3⟩ := jnExp_consumed h3
            have hhead : c = d := by
              rw [hp1] at he1
              simpa using congrArg List.head? he1
            refine ⟨?_, c, rest, rfl, Or.inr (hhead ▸ (by simpa [isDigitC] using hd))⟩
            intro a ha
            rw [he1, he2, he3] at ha
            simp only [List.append_nil, List.mem_append] at ha
            rcases ha with h5 | h5 | h5
            · exact ha1 a h5
            · exact ha2 a h5
            · exact ha3 a h5

/-! ## Canonical rendering (spec §4.2)

The root token renders as its fixed literal name; the repository's root
identifier is `json` (see the unwrap check in `main.go`).  Key tokens
render dotted when they match the bare-identifier pattern and bracketed
JSON-quoted otherwise; index tokens render bracketed decimal. -/

/-- Fixed literal name of the root token (`main.go` checks for the key
`"json"` when unwrapping, and rendered statements start with it). -/
def rootIdent : List Char := ['j', 's', 'o', 'n']

/-- Bare-identifier test: letter/underscore then letters/digits/underscores
(spec §4.2). -/
def bareOK (s : String) : Bool :=
  match s.toList with
  | c0 :: more => isBareStart c0 && more.all isBareChar
  | [] => false

/-- Modelled from the spec: canonical rendering of one path token
(spec §4.2). -/
def renderTokChars : Tok → List Char
  | .key k =>
    if bareOK k then '.' :: k.toList
    else '[' :: '"' :: (escChars k.toList ++ ['"', ']'])
  | .index i => '[' :: (natToChars i ++ [']'])

/-- Modelled from the spec: canonical rendering of the value side
(spec §4.2): two-character markers for empty containers, JSON scalar
literal forms otherwise. -/
def renderTValChars : TVal → List Char
  | .emptyObj => ['{', '}']
  | .emptyArr => ['[', ']']
  | .null => "null".toList
  | .bool b => if b then "true".toList else "false".toList
  | .num s => s.toList
  | .str s => '"' :: (escChars s.toList ++ ['"'])

/-- Modelled from the spec: canonical text of a statement,
`<path> = <value>;` (spec §4.2). -/
def renderChars (s : Statement) : List Char :=
  rootIdent ++ s.path.flatMap renderTokChars ++ [' ', '=', ' '] ++
    renderTValChars s.val ++ [';']

/-- Canonical text of a statement as a string (the wire format). -/
def renderStatement (s : Statement) : String := String.mk (renderChars s)

/-! ## Statement parser (spec §4.3)

Grammar: `statement := path WS* '=' WS* value WS* ';'?` with
`path := root-ident path-segment*`,
`path-segment := '.' bare-ident | '[' (decimal-digits | json-string) ']'`,
`value := json-scalar | '{}' | '[]'`.  Any bare identifier is accepted in
root position and denotes the root token (the spec's examples write the
root as `root`, the renderer writes `json`; all root tokens are
interchangeable). -/

theorem length_dropWhile_le {α : Type} (p : α → Bool) (l : List α) :
    (l.dropWhile p).length ≤ l.length := by
  induction l with
  | nil => exact Nat.le.refl
  | cons a l2 ih =>
    rw [List.dropWhile_cons]
    split
    · exact le_trans ih (by simp)
    · simp

/-- One step of path-segment parsing: either the path ends here (`done`),
the segment is malformed (`fail`), or a token was read together with the
total number of characters it occupied. -/
inductive SegStep where
  | done
  | fail
  | tok (t : Tok) (n : Nat)

/-- Modelled from the spec: recognize one `path-segment` of the grammar,
`'.' bare-ident | '[' (decimal-digits | json-string) ']'` (spec §4.3).
A character that starts no segment ends the path. -/
def parseSeg1 (cs : List Char) : SegStep :=
  match cs with
  | [] => .done
  | c :: rest =>
    if c = '.' then
      let name := rest.takeWhile isBareChar
      if name.isEmpty then .fail
      else if isBareStart (name.headD ' ') then
        .tok (Tok.key (String.mk name)) (name.length + 1)
      else .fail
    else if c = '[' then
      match rest with
      | [] => .fail
      | c2 :: rest2 =>
        if c2 = '"' then
          match parseJString rest2 with
          | none => .fail
          | some (content, n) =>
            if (rest2.drop n).head? = some ']' then
              .tok (Tok.key (String.mk content)) (n + 3)
            else .fail
        else if isDigitC c2 then
          let ds := rest2.takeWhile isDigitC
          if (rest2.drop ds.length).head? = some ']' then
            .tok (Tok.index (digitsToNat (c2 :: ds))) (ds.length + 3)
          else .fail
        else .fail
    else .done

theorem parseSeg1_tok_pos {cs : List Char} {t : Tok} {n : Nat}
    (h : parseSeg1 cs = .tok t n) : 0 < n ∧ 0 < cs.length := by
  cases cs with
  | nil => simp [parseSeg1] at h
  | cons c rest =>
    refine ⟨?_, by simp⟩
    rw [parseSeg1.eq_def] at h
    simp only at h
    repeat' split at h
    all_goals try cases h
    all_goals omega

/-- Modelled from the spec: the `path-segment*` part of the grammar;
returns the tokens and the rest of the line after the path. -/
def parseSegs (cs : List Char) : Option (List Tok × List Char) :=
  match hseg : parseSeg1 cs with
  | .done => some ([], cs)
  | .fail => none
  | .tok t n => (parseSegs (cs.drop n)).map (fun p => (t :: p.1, p.2))
termination_by cs.length
decreasing_by
  have := parseSeg1_tok_pos hseg
  simp only [List.length_drop]
  omega

/-- Modelled from the spec: the value side of a statement (spec §4.3):
`{}`/`[]` are recognized only as literal two-character markers, anything
else must be a JSON scalar literal. -/
def parseTVal (cs : List Char) : Option (TVal × List Char) :=
  match cs with
  | [] => none
  | c :: rest =>
    if c = '"' then
      match parseJString rest with
      | none => none
      | some (content, n) => some (.str (String.mk content), rest.drop n)
    else if c = '{' then
      if rest.head? = some '}' then some (.emptyObj, rest.tail) else none
    else if c = '[' then
      if rest.head? = some ']' then some (.emptyArr, rest.tail) else none
    else if c = 'n' then
      if rest.take 3 = ['u', 'l', 'l'] then some (.null, rest.drop 3) else none
    else if c = 't' then
      if rest.take 3 = ['r', 'u', 'e'] then some (.bool true, rest.drop 3) else none
    else if c = 'f' then
      if rest.take 4 = ['a', 'l', 's', 'e'] then some (.bool false, rest.drop 4) else none
    else
      if isJsonNumber ((c :: rest).takeWhile isNumChar) then
        some (.num (String.mk ((c :: rest).takeWhile isNumChar)),
          (c :: rest).dropWhile isNumChar)
      else none

/-- Modelled from the spec: parse one line into a statement (spec §4.3),
tolerating surrounding whitespace and one trailing semicolon. -/
def parseChars (cs0 : List Char) : Option Statement :=
  let cs := cs0.dropWhile isWS
  match cs.takeWhile isBareChar with
  | [] => none
  | c0 :: _ =>
    if isBareStart c0 then
      match parseSegs (cs.dropWhile isBareChar) with
      | none => none
      | some (toks, r1) =>
        let r2 := r1.dropWhile isWS
        if r2.head? = some '=' then
          match parseTVal (r2.tail.dropWhile isWS) with
          | none => none
          | some (tv, r5) =>
            let r6 := r5.dropWhile isWS
            let r7 := if r6.head? = some ';' then r6.tail.dropWhile isWS else r6
            if r7.isEmpty then some ⟨toks, tv⟩ else none
        else none
    else none

/-- Modelled from the spec: `parse(line)` fails with a condition carrying
the offending line verbatim (spec §4.3, error reporting). -/
def parseStatement (line : String) : Except String Statement :=
  match parseChars line.toList with
  | some s => .ok s
  | none => .error line

/-! ## Parse is a left inverse of render (spec §8, canonical render/parse
inverse).  Proved first at character-list level, segment by segment. -/

theorem String.mk_toList (s : String) : String.mk s.toList = s := by
  cases s
  rfl

theorem toList_mk (l : List Char) : (String.mk l).toList = l := rfl

theorem bareStart_bareChar {c : Char} (h : isBareStart c = true) :
    isBareChar c = true := by
  simp only [isBareStart, Bool.or_eq_true] at h
  rcases h with h | h
  · simp [isBareChar, Char.isAlphanum, h]
  · simp [isBareChar, h]

theorem bareOK_shape {k : String} (h : bareOK k = true) :
    ∃ c0 cs0, k.toList = c0 :: cs0 ∧ isBareStart c0 = true ∧
      ∀ a ∈ c0 :: cs0, isBareChar a = true := by
  rw [bareOK] at h
  match hk : k.toList with
  | [] => rw [hk] at h; cases h
  | c :: cs =>
    rw [hk] at h
    simp only [Bool.and_eq_true] at h
    refine ⟨c, cs, rfl, h.1, ?_⟩
    intro a ha
    rcases List.mem_cons.mp ha with h1 | h1
    · subst h1; exact bareStart_bareChar h.1
    · rw [List.all_eq_true] at h
      exact h.2 a h1

/-- Every rendered path token starts with a dot or an opening bracket. -/
theorem renderTok_head (t : Tok) :
    ∃ y ys, renderTokChars t = y :: ys ∧ (y = '.' ∨ y = '[') := by
  cases t with
  | key k =>
    rw [renderTokChars]
    by_cases hb : bareOK k
    · rw [if_pos hb]; exact ⟨'.', k.toList, rfl, Or.inl rfl⟩
    · rw [if_neg hb]
      exact ⟨'[', '"' :: (escChars k.toList ++ ['"', ']']), rfl, Or.inr rfl⟩
  | index i => exact ⟨'[', natToChars i ++ [']'], rfl, Or.inr rfl⟩

/-- The text after a rendered path starts with a non-identifier character
whenever the trailing rest does. -/
theorem segsTail_head (ts : List Tok) (rest : List Char)
    (h : rest.head? = some ' ') :
    ∃ y ys, ts.flatMap renderTokChars ++ rest = y :: ys ∧ isBareChar y = false := by
  cases ts with
  | nil =>
    cases rest with
    | nil => simp at h
    | cons y r =>
      have hy : y = ' ' := by simpa using h
      subst hy
      exact ⟨' ', r, rfl, by decide⟩
  | cons t ts' =>
    obtain ⟨y, ys, hy, hdotbr⟩ := renderTok_head t
    rw [List.flatMap_cons, hy]
    refine ⟨y, ys ++ (ts'.flatMap renderTokChars ++ rest), by simp, ?_⟩
    rcases hdotbr with h1 | h1 <;> subst h1 <;> decide

theorem digit_ne_quote {c : Char} (h : isDigitC c = true) : ¬c = '"' := by
  intro he; subst he; simp [isDigitC] at h

theorem parseSegs_done {cs : List Char} (h : parseSeg1 cs = .done) :
    parseSegs cs = some ([], cs) := by
  rw [parseSegs.eq_def]
  split
  · rfl
  · rename_i heq
    rw [h] at heq
    cases heq
  · rename_i t n heq
    rw [h] at heq
    cases heq

theorem parseSegs_tok {cs : List Char} {t : Tok} {n : Nat}
    (h : parseSeg1 cs = .tok t n) :
    parseSegs cs = (parseSegs (cs.drop n)).map (fun p => (t :: p.1, p.2)) := by
  rw [parseSegs.eq_def]
  split
  · rename_i heq
    rw [h] at heq
    cases heq
  · rename_i heq
    rw [h] at heq
    cases heq
  · rename_i t' n' heq
    rw [h] at heq
    injection heq with h1 h2
    subst h1
    subst h2
    rfl

theorem parseSeg1_stop (y : Char) (ys : List Char)
    (hdot : ¬y = '.') (hbr : ¬y = '[') :
    parseSeg1 (y :: ys) = .done := by
  rw [parseSeg1.eq_def]
  simp [hdot, hbr]

theorem parseSegs_stop (y : Char) (ys : List Char)
    (hdot : ¬y = '.') (hbr : ¬y = '[') :
    parseSegs (y :: ys) = some ([], y :: ys) :=
  parseSegs_done (parseSeg1_stop y ys hdot hbr)

/-- Equation of `parseSeg1` on a rendered dotted segment. -/
theorem parseSeg1_dot (c0 : Char) (cs0 tail : List Char)
    (hstart : isBareStart c0 = true)
    (hall : ∀ a ∈ c0 :: cs0, isBareChar a = true)
    (htail : ∀ a, tail.head? = some a → isBareChar a = false) :
    parseSeg1 ('.' :: (c0 :: (cs0 ++ tail))) =
      .tok (Tok.key (String.mk (c0 :: cs0))) ((c0 :: cs0).length + 1) := by
  have hstop := takeWhile_append_stop isBareChar (c0 :: cs0) tail hall htail
  simp only [List.cons_append] at hstop
  rw [parseSeg1.eq_def]
  simp only [reduceIte, hstop.1]
  simp [hstart]

/-- Equation of `parseSeg1` on a rendered bracketed string segment. -/
theorem parseSeg1_bracket_str (k tail : List Char) :
    parseSeg1 ('[' :: '"' :: (escChars k ++ '"' :: ']' :: tail)) =
      .tok (Tok.key (String.mk k)) ((escChars k).length + 1 + 3) := by
  have hdrop : (escChars k ++ '"' :: ']' :: tail).drop ((escChars k).length + 1) =
      ']' :: tail := by
    have h1 : escChars k ++ '"' :: ']' :: tail = (escChars k ++ ['"']) ++ ']' :: tail := by
      simp
    have h2 : (escChars k ++ ['"']).length = (escChars k).length + 1 := by simp
    rw [h1, ← h2]
    exact List.drop_left _ _
  rw [parseSeg1.eq_def]
  simp only [Char.reduceEq, reduceIte]
  rw [parseJString_esc k (']' :: tail)]
  simp only [hdrop, List.head?_cons, Char.reduceEq, reduceIte]

/-- Equation of `parseSeg1` on a rendered bracketed index segment. -/
theorem parseSeg1_bracket_digits (d0 : Char) (ds0 tail : List Char)
    (hd0 : isDigitC d0 = true) (hds : ∀ a ∈ ds0, isDigitC a = true) :
    parseSeg1 ('[' :: d0 :: (ds0 ++ ']' :: tail)) =
      .tok (Tok.index (digitsToNat (d0 :: ds0))) (ds0.length + 3) := by
  have hstop := takeWhile_append_stop isDigitC ds0 (']' :: tail) hds
    (by intro a ha; cases ha; decide)
  have hdrop : (ds0 ++ ']' :: tail).drop ds0.length = ']' :: tail := List.drop_left _ _
  rw [parseSeg1.eq_def]
  simp only [Char.reduceEq, reduceIte]
  rw [if_neg (digit_ne_quote hd0), if_pos hd0]
  simp only [hstop.1, hdrop, List.head?_cons, Char.reduceEq, reduceIte]

/-- Equation of `parseSegs` on a rendered dotted segment. -/
theorem parseSegs_dot (c0 : Char) (cs0 tail : List Char)
    (hstart : isBareStart c0 = true)
    (hall : ∀ a ∈ c0 :: cs0, isBareChar a = true)
    (htail : ∀ a, tail.head? = some a → isBareChar a = false) :
    parseSegs ('.' :: (c0 :: (cs0 ++ tail))) =
      (parseSegs tail).map (fun p => (Tok.key (String.mk (c0 :: cs0)) :: p.1, p.2)) := by
  have hdropall : ('.' :: (c0 :: (cs0 ++ tail))).drop ((c0 :: cs0).length + 1) = tail := by
    simp only [List.length_cons, List.drop_succ_cons]
    exact List.drop_left cs0 tail
  rw [parseSegs_tok (parseSeg1_dot c0 cs0 tail hstart hall htail), hdropall]

/-- Equation of `parseSegs` on a rendered bracketed string segment. -/
theorem parseSegs_bracket_str (k tail : List Char) :
    parseSegs ('[' :: '"' :: (escChars k ++ '"' :: ']' :: tail)) =
      (parseSegs tail).map (fun p => (Tok.key (String.mk k) :: p.1, p.2)) := by
  have hshape : '[' :: '"' :: (escChars k ++ '"' :: ']' :: tail) =
      ('[' :: '"' :: (escChars k ++ ['"', ']'])) ++ tail := by simp
  have hlen : ('[' :: '"' :: (escChars k ++ ['"', ']'])).length =
      (escChars k).length + 1 + 3 := by
    simp only [List.length_cons, List.length_append, List.length_nil]
  have hdropall : ('[' :: '"' :: (escChars k ++ '"' :: ']' :: tail)).drop
      ((escChars k).length + 1 + 3) = tail := by
    rw [hshape, ← hlen]
    exact List.drop_left _ _
  rw [parseSegs_tok (parseSeg1_bracket_str k tail), hdropall]

/-- Equation of `parseSegs` on a rendered bracketed index segment. -/
theorem parseSegs_bracket_digits (d0 : Char) (ds0 tail : List Char)
    (hd0 : isDigitC d0 = true) (hds : ∀ a ∈ ds0, isDigitC a = true) :
    parseSegs ('[' :: d0 :: (ds0 ++ ']' :: tail)) =
      (parseSegs tail).map
        (fun p => (Tok.index (digitsToNat (d0 :: ds0)) :: p.1, p.2)) := by
  have hshape : '[' :: d0 :: (ds0 ++ ']' :: tail) =
      ('[' :: d0 :: (ds0 ++ [']'])) ++ tail := by simp
  have hlen : ('[' :: d0 :: (ds0 ++ [']'])).length = ds0.length + 3 := by
    simp only [List.length_cons, List.length_append, List.length_nil]
  have hdropall : ('[' :: d0 :: (ds0 ++ ']' :: tail)).drop (ds0.length + 3) = tail := by
    rw [hshape, ← hlen]
    exact List.drop_left _ _
  rw [parseSegs_tok (parseSeg1_bracket_digits d0 ds0 tail hd0 hds), hdropall]

/-- Parsing the rendered path segments recovers the tokens and leaves the
rest of the line (which must start with a blank) untouched. -/
theorem parseSegs_render (ts : List Tok) :
    ∀ rest, rest.head? = some ' ' →
      parseSegs (ts.flatMap renderTokChars ++ rest) = some (ts, rest) := by
  induction ts with
  | nil =>
    intro rest h
    cases rest with
    | nil => simp at h
    | cons y r =>
      have hy : y = ' ' := by simpa using h
      subst hy
      rw [List.flatMap_nil, List.nil_append]
      exact parseSegs_stop ' ' r (by decide) (by decide)
  | cons t ts' ih =>
    intro rest h
    obtain ⟨y, ys, hy, hybare⟩ := segsTail_head ts' rest h
    cases t with
    | key k =>
      by_cases hb : bareOK k
      · obtain ⟨c0, cs0, hk, hstart, hall⟩ := bareOK_shape hb
        rw [List.flatMap_cons, renderTokChars, if_pos hb, hk]
        simp only [List.cons_append, List.nil_append, List.append_assoc]
        rw [parseSegs_dot c0 cs0 (ts'.flatMap renderTokChars ++ rest) hstart hall
          (by intro a ha; rw [hy] at ha; cases ha; exact hybare)]
        rw [ih rest h]
        simp only [Option.map_some']
        rw [← hk, String.mk_toList]
      · rw [List.flatMap_cons, renderTokChars, if_neg hb]
        simp only [List.cons_append, List.nil_append, List.append_assoc]
        rw [parseSegs_bracket_str k.toList (ts'.flatMap renderTokChars ++ rest)]
        rw [ih rest h]
        simp only [Option.map_some']
        rw [String.mk_toList]
    | index i =>
      obtain ⟨d0, ds0, hnat, hd0⟩ := natToChars_head_digit i
      have hds : ∀ a ∈ ds0, isDigitC a = true := by
        intro a ha
        exact natToChars_all_digits i a (hnat ▸ List.mem_cons_of_mem d0 ha)
      rw [List.flatMap_cons, renderTokChars, hnat]
      simp only [List.cons_append, List.nil_append, List.append_assoc]
      rw [parseSegs_bracket_digits d0 ds0 (ts'.flatMap renderTokChars ++ rest) hd0 hds]
      rw [ih rest h]
      simp only [Option.map_some']
      rw [← hnat, digitsToNat_natToChars]

/-! ## Well-formedness of statement values and the value-side round trip. -/

/-- A statement value is well formed when a number carries text in the
JSON number grammar (strings can hold anything; the renderer escapes). -/
def tvWF : TVal → Bool
  | .num s => isJsonNumber s.toList
  | _ => true

theorem parseTVal_str (s rest : List Char) :
    parseTVal ('"' :: (escChars s ++ '"' :: rest)) = some (.str (String.mk s), rest) := by
  have hdrop : (escChars s ++ '"' :: rest).drop ((escChars s).length + 1) = rest := by
    have h1 : escChars s ++ '"' :: rest = (escChars s ++ ['"']) ++ rest := by simp
    have h2 : (escChars s ++ ['"']).length = (escChars s).length + 1 := by simp
    rw [h1, ← h2]
    exact List.drop_left _ _
  rw [parseTVal.eq_def]
  simp only [Char.reduceEq, reduceIte]
  rw [parseJString_esc s rest]
  simp only [hdrop]

theorem num_head_cases {c : Char} (h : c = '-' ∨ c.isDigit = true) :
    ¬c = '"' ∧ ¬c = '{' ∧ ¬c = '[' ∧ ¬c = 'n' ∧ ¬c = 't' ∧ ¬c = 'f' := by
  have hne : ∀ d : Char, ¬d = '-' → d.isDigit = false → ¬c = d := by
    intro d hd1 hd2 he
    subst he
    rcases h with h2 | h2
    · exact hd1 h2
    · rw [h2] at hd2
      cases hd2
  exact ⟨hne _ (by decide) (by decide), hne _ (by decide) (by decide),
    hne _ (by decide) (by decide), hne _ (by decide) (by decide),
    hne _ (by decide) (by decide), hne _ (by decide) (by decide)⟩

theorem parseTVal_num (s : List Char) (h : isJsonNumber s = true) (rest : List Char)
    (hrest : ∀ a, rest.head? = some a → isNumChar a = false) :
    parseTVal (s ++ rest) = some (.num (String.mk s), rest) := by
  obtain ⟨hall, c, cs', hs, hc⟩ := isJsonNumber_shape h
  obtain ⟨h1, h2, h3, h4, h5, h6⟩ := num_head_cases hc
  subst hs
  have hstop := takeWhile_append_stop isNumChar (c :: cs') rest hall hrest
  simp only [List.cons_append] at hstop
  rw [List.cons_append, parseTVal.eq_def]
  simp only [if_neg h1, if_neg h2, if_neg h3, if_neg h4, if_neg h5, if_neg h6]
  simp only [hstop.1, hstop.2, h, if_pos]

/-- Round trip of the value side: parsing the canonical rendering of a
well-formed statement value recovers it and leaves the rest alone. -/
theorem parseTVal_render (tv : TVal) (h : tvWF tv = true) (rest : List Char)
    (hsemi : ∀ a, rest.head? = some a → isNumChar a = false) :
    parseTVal (renderTValChars tv ++ rest) = some (tv, rest) := by
  cases tv with
  | emptyObj => rfl
  | emptyArr => rfl
  | null => rfl
  | bool b => cases b <;> rfl
  | num s => exact (String.mk_toList s) ▸ parseTVal_num s.toList h rest hsemi
  | str s =>
    have hshape : renderTValChars (.str s) ++ rest =
        '"' :: (escChars s.toList ++ '"' :: rest) := by
      rw [renderTValChars]
      simp
    rw [hshape, parseTVal_str, String.mk_toList]

theorem dropWhile_head_false {α : Type} (p : α → Bool) (y : α) (ys : List α)
    (h : p y = false) : (y :: ys).dropWhile p = y :: ys := by
  rw [List.dropWhile_cons, h]
  simp

theorem dropWhile_head_true {α : Type} (p : α → Bool) (y : α) (ys : List α)
    (h : p y = true) : (y :: ys).dropWhile p = ys.dropWhile p := by
  rw [List.dropWhile_cons, h]
  simp

theorem digit_not_ws {c : Char} (h : isDigitC c = true) : isWS c = false := by
  by_contra hw
  rw [Bool.not_eq_false] at hw
  simp only [isWS, Bool.or_eq_true, decide_eq_true_eq] at hw
  rcases hw with ((h1 | h1) | h1) | h1 <;>
    · subst h1
      exact absurd h (by decide)

/-- The canonical rendering of a well-formed value never starts with
whitespace. -/
theorem renderTVal_head (tv : TVal) (h : tvWF tv = true) :
    ∃ y ys, renderTValChars tv = y :: ys ∧ isWS y = false := by
  cases tv with
  | emptyObj => exact ⟨'{', ['}'], rfl, by decide⟩
  | emptyArr => exact ⟨'[', [']'], rfl, by decide⟩
  | null => exact ⟨'n', ['u', 'l', 'l'], rfl, by decide⟩
  | bool b =>
    cases b
    · exact ⟨'f', ['a', 'l', 's', 'e'], rfl, by decide⟩
    · exact ⟨'t', ['r', 'u', 'e'], rfl, by decide⟩
  | num s =>
    rw [tvWF] at h
    obtain ⟨hall, c, cs', hs, hc⟩ := isJsonNumber_shape h
    refine ⟨c, cs', ?_, ?_⟩
    · rw [renderTValChars, hs]
    · rcases hc with h1 | h1
      · subst h1
        decide
      · exact digit_not_ws (by simpa [isDigitC] using h1)
  | str s => exact ⟨'"', escChars s.toList ++ ['"'], rfl, by decide⟩

/-- Round trip at line level: parsing the canonical text of a well-formed
statement recovers the statement. -/
theorem parseChars_render (toks : List Tok) (tv : TVal) (h : tvWF tv = true) :
    parseChars (renderChars ⟨toks, tv⟩) = some ⟨toks, tv⟩ := by
  obtain ⟨y0, ys0, hy0, hws0⟩ := renderTVal_head tv h
  obtain ⟨y1, ys1, hy1, hbare1⟩ :=
    segsTail_head toks (' ' :: '=' :: ' ' :: (renderTValChars tv ++ [';'])) rfl
  have hstop := takeWhile_append_stop isBareChar ['j', 's', 'o', 'n']
    (toks.flatMap renderTokChars ++ (' ' :: '=' :: ' ' :: (renderTValChars tv ++ [';'])))
    (by decide)
    (by intro a ha; rw [hy1] at ha; cases ha; exact hbare1)
  simp only [List.cons_append, List.nil_append] at hstop
  have hsegs := parseSegs_render toks (' ' :: '=' :: ' ' :: (renderTValChars tv ++ [';'])) rfl
  have htv := parseTVal_render tv h [';'] (by intro a ha; cases ha; decide)
  rw [renderChars, parseChars.eq_def]
  simp only [rootIdent, List.cons_append, List.nil_append, List.append_assoc]
  rw [dropWhile_head_false isWS 'j' _ (by decide)]
  rw [hstop.1]
  simp only [show isBareStart 'j' = true from by decide, reduceIte]
  rw [hstop.2, hsegs]
  simp only
  rw [dropWhile_head_true isWS ' ' _ (by decide),
    dropWhile_head_false isWS '=' _ (by decide)]
  simp only [List.head?_cons, reduceIte, List.tail_cons]
  rw [dropWhile_head_true isWS ' ' _ (by decide), hy0, List.cons_append,
    dropWhile_head_false isWS y0 _ hws0, ← List.cons_append, ← hy0, htv]
  simp only
  rw [dropWhile_head_false isWS ';' _ (by decide)]
  simp only [List.head?_cons, reduceIte, List.tail_cons, List.dropWhile_nil,
    List.isEmpty_nil]

/-- Round trip at statement level (spec §8, canonical render/parse
inverse): the parser recovers every well-formed rendered statement. -/
theorem parseStatement_render (st : Statement) (h : tvWF st.val = true) :
    parseStatement (renderStatement st) = .ok st := by
  obtain ⟨toks, tv⟩ := st
  rw [parseStatement, renderStatement, toList_mk, parseChars_render toks tv h]

/-! ## Tree builder / merger (spec §4.4)

Statements are folded in encounter order into a single `Value`, creating
intermediate containers on demand, growing lists with Null fill, and
signalling a structural conflict or type mismatch naming the offending
path.  The reported path is the token sequence below the root token. -/

/-- Modelled from the spec: merge-time failures (spec §4.4/§7), each
naming the path of the offending node. -/
inductive MergeErr where
  | typeMismatchOnKey (path : List Tok)
  | typeMismatchOnIndex (path : List Tok)
  | structuralConflict (path : List Tok)
deriving DecidableEq

/-- Field lookup in a mapping (first match). -/
def lookupF : List (String × Value) → String → Option Value
  | [], _ => none
  | (k, x) :: fs, k2 => if k = k2 then some x else lookupF fs k2

/-- Replace the value of a field in place, or append a new field. -/
def updateF : List (String × Value) → String → Value → List (String × Value)
  | [], k, c => [(k, c)]
  | (k0, x) :: fs, k, c =>
    if k0 = k then (k0, c) :: fs else (k0, x) :: updateF fs k c

/-- Element of a list at an index, Null when absent (spec §4.4: slots not
yet assigned read as Null). -/
def getIdx : List Value → Nat → Value
  | [], _ => .null
  | x :: _, 0 => x
  | _ :: xs, i + 1 => getIdx xs i

/-- Modelled from the spec: set a list element, growing the list and
filling newly created intermediate slots with Null (spec §4.4 step 2). -/
def setGrow : List Value → Nat → Value → List Value
  | [], 0, c => [c]
  | [], i + 1, c => .null :: setGrow [] i c
  | _ :: xs, 0, c => c :: xs
  | x :: xs, i + 1, c => x :: setGrow xs i c

/-- Modelled from the spec: walk one statement path into a value, creating
intermediate nodes on demand, and set the terminal (spec §4.4).  `trace`
is the already-walked path, used only in error reports.  A `KeyToken`
requires Null-or-Mapping, an `IndexToken` Null-or-List; the terminal
markers instantiate or confirm an empty container, scalars overwrite
unconditionally (last write for an exact full path wins). -/
def insertAt (cur : Value) (trace : List Tok) (toks : List Tok) (tv : TVal) :
    Except MergeErr Value :=
  match toks with
  | [] =>
    match tv with
    | .emptyObj =>
      match cur with
      | .null => .ok (.obj [])
      | .obj fs => .ok (.obj fs)
      | _ => .error (.structuralConflict trace)
    | .emptyArr =>
      match cur with
      | .null => .ok (.arr [])
      | .arr xs => .ok (.arr xs)
      | _ => .error (.structuralConflict trace)
    | .null => .ok .null
    | .bool b => .ok (.bool b)
    | .num s => .ok (.num s)
    | .str s => .ok (.str s)
  | .key k :: rest =>
    match cur with
    | .null =>
      (insertAt .null (trace ++ [.key k]) rest tv).map (fun c => .obj [(k, c)])
    | .obj fs =>
      (insertAt ((lookupF fs k).getD .null) (trace ++ [.key k]) rest tv).map
        (fun c => .obj (updateF fs k c))
    | _ => .error (.typeMismatchOnKey trace)
  | .index i :: rest =>
    match cur with
    | .null =>
      (insertAt .null (trace ++ [.index i]) rest tv).map (fun c => .arr (setGrow [] i c))
    | .arr xs =>
      (insertAt (getIdx xs i) (trace ++ [.index i]) rest tv).map
        (fun c => .arr (setGrow xs i c))
    | _ => .error (.typeMismatchOnIndex trace)

/-- Modelled from the spec: fold statements in encounter order into one
value (spec §4.4). -/
def mergeList : List Statement → Value → Except MergeErr Value
  | [], t => .ok t
  | s :: ss, t =>
    match insertAt t [] s.path s.val with
    | .error e => .error e
    | .ok t2 => mergeList ss t2

/-- Modelled from the spec: `merge(statements)`, starting from the unset
root (spec §4.4). -/
def mergeStatements (ss : List Statement) : Except MergeErr Value :=
  mergeList ss .null

/-! ## Flattener (spec §4.1)

Depth-first traversal: containers first emit their empty-container
declaration, then their children in order; scalars emit one statement.
Paths are stored relative to the root token. -/

mutual

/-- Modelled from the spec: flatten one value into statements (spec §4.1);
child statements get the corresponding token consed onto their paths. -/
def flatten1 : Value → List Statement
  | .null => [⟨[], .null⟩]
  | .bool b => [⟨[], .bool b⟩]
  | .num s => [⟨[], .num s⟩]
  | .str s => [⟨[], .str s⟩]
  | .arr xs => ⟨[], .emptyArr⟩ :: flattenArr 0 xs
  | .obj fs => ⟨[], .emptyObj⟩ :: flattenObj fs

/-- Statements of list elements, numbering from `i`. -/
def flattenArr (i : Nat) : List Value → List Statement
  | [] => []
  | x :: xs =>
    (flatten1 x).map (fun s => ⟨Tok.index i :: s.path, s.val⟩) ++ flattenArr (i + 1) xs

/-- Statements of mapping fields, in field order. -/
def flattenObj : List (String × Value) → List Statement
  | [] => []
  | (k, x) :: fs =>
    (flatten1 x).map (fun s => ⟨Tok.key k :: s.path, s.val⟩) ++ flattenObj fs

end

/-- A key does not occur in a field list. -/
def keyAbsent (k : String) : List (String × Value) → Bool
  | [] => true
  | (k0, _) :: fs => (decide ¬k0 = k) && keyAbsent k fs

/-- Mapping keys are pairwise distinct. -/
def nodupKeysB : List (String × Value) → Bool
  | [] => true
  | (k, _) :: fs => keyAbsent k fs && nodupKeysB fs

mutual

/-- Modelled from the spec: well-formed values — mapping keys are unique
(§3) and number text is in the JSON number grammar (§4.2). -/
def wfV : Value → Bool
  | .null => true
  | .bool _ => true
  | .num s => isJsonNumber s.toList
  | .str _ => true
  | .arr xs => wfArr xs
  | .obj fs => nodupKeysB fs && wfObj fs

/-- All list elements well formed. -/
def wfArr : List Value → Bool
  | [] => true
  | x :: xs => wfV x && wfArr xs

/-- All field values well formed. -/
def wfObj : List (String × Value) → Bool
  | [] => true
  | (_, x) :: fs => wfV x && wfObj fs

end

/-! ## Merge reconstructs flattened values: supporting lemmas. -/

/-- Member-wise induction over the nested value type. -/
theorem Value.inductionOn {P : Value → Prop}
    (hnull : P .null) (hbool : ∀ b, P (.bool b)) (hnum : ∀ s, P (.num s))
    (hstr : ∀ s, P (.str s))
    (harr : ∀ xs, (∀ x ∈ xs, P x) → P (.arr xs))
    (hobj : ∀ fs, (∀ kv ∈ fs, P kv.2) → P (.obj fs)) :
    ∀ v, P v
  | .null => hnull
  | .bool b => hbool b
  | .num s => hnum s
  | .str s => hstr s
  | .arr xs =>
    harr xs (fun x hx => Value.inductionOn hnull hbool hnum hstr harr hobj x)
  | .obj fs =>
    hobj fs (fun kv hkv => Value.inductionOn hnull hbool hnum hstr harr hobj kv.2)
termination_by v => sizeOf v
decreasing_by
  · have h1 := List.sizeOf_lt_of_mem hx
    simp_all
    omega
  · have h1 := List.sizeOf_lt_of_mem hkv
    rcases kv with ⟨k, x⟩
    simp_all
    omega

theorem exceptMap_ok {ε α β : Type} {e : Except ε α} {f : α → β} {r : β}
    (h : e.map f = .ok r) : ∃ c, e = .ok c ∧ f c = r := by
  cases e with
  | error e2 => simp [Except.map] at h
  | ok c => exact ⟨c, rfl, by simpa [Except.map] using h⟩

theorem exceptMap_ok_intro {ε α β : Type} {e : Except ε α} {f : α → β} {c : α} {r : β}
    (h : e = .ok c) (h2 : f c = r) : e.map f = .ok r := by
  subst h
  subst h2
  rfl

/-- A successful insert does not depend on the error trace. -/
theorem insertAt_ok_trace {toks : List Tok} :
    ∀ {cur : Value} {tv : TVal} {tr tr2 : List Tok} {r : Value},
      insertAt cur tr toks tv = .ok r → insertAt cur tr2 toks tv = .ok r := by
  induction toks with
  | nil =>
    intro cur tv tr tr2 r h
    cases tv <;> cases cur <;> simp_all [insertAt]
  | cons t rest ih =>
    intro cur tv tr tr2 r h
    cases t with
    | key k =>
      cases cur with
      | null =>
        simp only [insertAt] at h ⊢
        obtain ⟨c, hc, hfc⟩ := exceptMap_ok h
        exact exceptMap_ok_intro (ih hc) hfc
      | obj fs =>
        simp only [insertAt] at h ⊢
        obtain ⟨c, hc, hfc⟩ := exceptMap_ok h
        exact exceptMap_ok_intro (ih hc) hfc
      | bool b => simp only [insertAt] at h; cases h
      | num s => simp only [insertAt] at h; cases h
      | str s => simp only [insertAt] at h; cases h
      | arr xs => simp only [insertAt] at h; cases h
    | index i =>
      cases cur with
      | null =>
        simp only [insertAt] at h ⊢
        obtain ⟨c, hc, hfc⟩ := exceptMap_ok h
        exact exceptMap_ok_intro (ih hc) hfc
      | arr xs =>
        simp only [insertAt] at h ⊢
        obtain ⟨c, hc, hfc⟩ := exceptMap_ok h
        exact exceptMap_ok_intro (ih hc) hfc
      | bool b => simp only [insertAt] at h; cases h
      | num s => simp only [insertAt] at h; cases h
      | str s => simp only [insertAt] at h; cases h
      | obj fs => simp only [insertAt] at h; cases h

theorem mergeList_append_ok {a : List Statement} :
    ∀ {t t2 : Value}, mergeList a t = .ok t2 →
      ∀ b : List Statement, mergeList (a ++ b) t = mergeList b t2 := by
  induction a with
  | nil =>
    intro t t2 h b
    simp only [mergeList] at h
    cases h
    simp
  | cons s ss ih =>
    intro t t2 h b
    rw [mergeList] at h
    rw [List.cons_append, mergeList]
    cases hi : insertAt t [] s.path s.val with
    | error e =>
      rw [hi] at h
      simp at h
    | ok t3 =>
      rw [hi] at h
      simp only at h
      exact ih h b

theorem lookupF_updateF (fs : List (String × Value)) (k : String) (c : Value) :
    lookupF (updateF fs k c) k = some c := by
  induction fs with
  | nil => simp [updateF, lookupF]
  | cons kv fs ih =>
    obtain ⟨k0, x⟩ := kv
    rw [updateF]
    by_cases hk : k0 = k
    · rw [if_pos hk, lookupF, if_pos hk]
    · rw [if_neg hk, lookupF, if_neg hk]
      exact ih

theorem updateF_updateF (fs : List (String × Value)) (k : String) (c1 c2 : Value) :
    updateF (updateF fs k c1) k c2 = updateF fs k c2 := by
  induction fs with
  | nil => simp [updateF]
  | cons kv fs ih =>
    obtain ⟨k0, x⟩ := kv
    rw [updateF]
    by_cases hk : k0 = k
    · rw [if_pos hk, updateF, if_pos hk, updateF, if_pos hk]
    · rw [if_neg hk, updateF, if_neg hk, updateF, if_neg hk, ih]

theorem updateF_absent (fs : List (String × Value)) (k : String) (c : Value)
    (h : lookupF fs k = none) : updateF fs k c = fs ++ [(k, c)] := by
  induction fs with
  | nil => simp [updateF]
  | cons kv fs ih =>
    obtain ⟨k0, x⟩ := kv
    rw [lookupF] at h
    by_cases hk : k0 = k
    · rw [if_pos hk] at h
      cases h
    · rw [if_neg hk] at h
      rw [updateF, if_neg hk, ih h]
      rfl

theorem getIdx_setGrow (i : Nat) :
    ∀ (xs : List Value) (c : Value), getIdx (setGrow xs i c) i = c := by
  induction i with
  | zero =>
    intro xs c
    cases xs <;> rfl
  | succ i ih =>
    intro xs c
    cases xs with
    | nil => exact ih [] c
    | cons x xs => exact ih xs c

theorem setGrow_setGrow (i : Nat) :
    ∀ (xs : List Value) (c1 c2 : Value),
      setGrow (setGrow xs i c1) i c2 = setGrow xs i c2 := by
  induction i with
  | zero =>
    intro xs c1 c2
    cases xs <;> rfl
  | succ i ih =>
    intro xs c1 c2
    cases xs with
    | nil => rw [setGrow, setGrow, setGrow, ih]
    | cons x xs => rw [setGrow, setGrow, setGrow, ih]

theorem setGrow_append (xs : List Value) (c : Value) :
    setGrow xs xs.length c = xs ++ [c] := by
  induction xs with
  | nil => rfl
  | cons x xs ih => rw [List.length_cons, setGrow, ih, List.cons_append]

theorem getIdx_length (xs : List Value) : getIdx xs xs.length = .null := by
  induction xs with
  | nil => rfl
  | cons x xs ih => rw [List.length_cons, getIdx, ih]

theorem flatten1_ne_nil (v : Value) : flatten1 v ≠ [] := by
  cases v <;> simp [flatten1]

/-- Inserting statements that all extend one mapping key routes into that
key's slot: folding the stripped group over the slot's current value and
writing the result back. -/
theorem strip_key :
    ∀ (qs : List Statement) (q : Statement) (acc : List (String × Value))
      (k : String) (c : Value),
      mergeList (q :: qs) ((lookupF acc k).getD .null) = .ok c →
      mergeList ((q :: qs).map (fun s => ⟨Tok.key k :: s.path, s.val⟩)) (.obj acc) =
        .ok (.obj (updateF acc k c)) := by
  intro qs
  induction qs with
  | nil =>
    intro q acc k c h
    rw [mergeList] at h
    cases hi : insertAt ((lookupF acc k).getD .null) [] q.path q.val with
    | error e =>
      rw [hi] at h
      simp at h
    | ok c1 =>
      rw [hi] at h
      simp only [mergeList] at h
      cases h
      rw [List.map_cons, List.map_nil, mergeList]
      have hstep : insertAt (.obj acc) [] (Tok.key k :: q.path) q.val =
          .ok (.obj (updateF acc k c)) := by
        simp only [insertAt]
        exact exceptMap_ok_intro (insertAt_ok_trace hi) rfl
      rw [hstep]
      rfl
  | cons q2 qs2 ih =>
    intro q acc k c h
    rw [mergeList] at h
    cases hi : insertAt ((lookupF acc k).getD .null) [] q.path q.val with
    | error e =>
      rw [hi] at h
      simp at h
    | ok c1 =>
      rw [hi] at h
      simp only at h
      rw [List.map_cons, mergeList]
      have hstep : insertAt (.obj acc) [] (Tok.key k :: q.path) q.val =
          .ok (.obj (updateF acc k c1)) := by
        simp only [insertAt]
        exact exceptMap_ok_intro (insertAt_ok_trace hi) rfl
      rw [hstep]
      simp only
      have h2 : mergeList (q2 :: qs2) ((lookupF (updateF acc k c1) k).getD .null) =
          .ok c := by
        rw [lookupF_updateF]
        exact h
      have h3 := ih q2 (updateF acc k c1) k c h2
      rw [updateF_updateF] at h3
      exact h3

/-- Inserting statements that all extend one list index routes into that
slot, growing the list once. -/
theorem strip_index :
    ∀ (qs : List Statement) (q : Statement) (acc : List Value)
      (i : Nat) (c : Value),
      mergeList (q :: qs) (getIdx acc i) = .ok c →
      mergeList ((q :: qs).map (fun s => ⟨Tok.index i :: s.path, s.val⟩)) (.arr acc) =
        .ok (.arr (setGrow acc i c)) := by
  intro qs
  induction qs with
  | nil =>
    intro q acc i c h
    rw [mergeList] at h
    cases hi : insertAt (getIdx acc i) [] q.path q.val with
    | error e =>
      rw [hi] at h
      simp at h
    | ok c1 =>
      rw [hi] at h
      simp only [mergeList] at h
      cases h
      rw [List.map_cons, List.map_nil, mergeList]
      have hstep : insertAt (.arr acc) [] (Tok.index i :: q.path) q.val =
          .ok (.arr (setGrow acc i c)) := by
        simp only [insertAt]
        exact exceptMap_ok_intro (insertAt_ok_trace hi) rfl
      rw [hstep]
      rfl
  | cons q2 qs2 ih =>
    intro q acc i c h
    rw [mergeList] at h
    cases hi : insertAt (getIdx acc i) [] q.path q.val with
    | error e =>
      rw [hi] at h
      simp at h
    | ok c1 =>
      rw [hi] at h
      simp only at h
      rw [List.map_cons, mergeList]
      have hstep : insertAt (.arr acc) [] (Tok.index i :: q.path) q.val =
          .ok (.arr (setGrow acc i c1)) := by
        simp only [insertAt]
        exact exceptMap_ok_intro (insertAt_ok_trace hi) rfl
      rw [hstep]
      simp only
      have h2 : mergeList (q2 :: qs2) (getIdx (setGrow acc i c1) i) = .ok c := by
        rw [getIdx_setGrow]
        exact h
      have h3 := ih q2 (setGrow acc i c1) i c h2
      rw [setGrow_setGrow] at h3
      exact h3

theorem keyAbsent_mem {k : String} :
    ∀ {fs : List (String × Value)}, keyAbsent k fs = true →
      ∀ kv ∈ fs, ¬kv.1 = k := by
  intro fs
  induction fs with
  | nil => intro _ kv hkv; cases hkv
  | cons kv0 fs ih =>
    obtain ⟨k0, x⟩ := kv0
    intro h kv hkv
    rw [keyAbsent, Bool.and_eq_true] at h
    rcases List.mem_cons.mp hkv with h1 | h1
    · subst h1
      simpa using h.1
    · exact ih h.2 kv h1

theorem lookupF_append_absent {fs : List (String × Value)} {k k2 : String}
    (h : lookupF fs k2 = none) (hne : ¬k = k2) (c : Value) :
    lookupF (fs ++ [(k, c)]) k2 = none := by
  induction fs with
  | nil => simpa [lookupF, hne]
  | cons kv fs ih =>
    obtain ⟨k0, x⟩ := kv
    rw [lookupF] at h
    by_cases hk : k0 = k2
    · rw [if_pos hk] at h
      cases h
    · rw [if_neg hk] at h
      rw [List.cons_append, lookupF, if_neg hk]
      exact ih h

theorem wfArr_mem : ∀ {xs : List Value}, wfArr xs = true → ∀ x ∈ xs, wfV x = true := by
  intro xs
  induction xs with
  | nil => intro _ x hx; cases hx
  | cons y ys ih =>
    intro h x hx
    rw [wfArr, Bool.and_eq_true] at h
    rcases List.mem_cons.mp hx with h1 | h1
    · subst h1; exact h.1
    · exact ih h.2 x h1

theorem wfObj_mem : ∀ {fs : List (String × Value)}, wfObj fs = true →
    ∀ kv ∈ fs, wfV kv.2 = true := by
  intro fs
  induction fs with
  | nil => intro _ kv hkv; cases hkv
  | cons kv0 fs ih =>
    obtain ⟨k0, x⟩ := kv0
    intro h kv hkv
    rw [wfObj, Bool.and_eq_true] at h
    rcases List.mem_cons.mp hkv with h1 | h1
    · subst h1; exact h.1
    · exact ih h.2 kv h1

/-- Folding the statements of a field list over a partially built mapping
appends the fields, provided their keys are fresh. -/
theorem obj_fold :
    ∀ (fs acc : List (String × Value)),
      (∀ kv ∈ fs, mergeList (flatten1 kv.2) .null = .ok kv.2) →
      (∀ kv ∈ fs, lookupF acc kv.1 = none) →
      nodupKeysB fs = true →
      mergeList (flattenObj fs) (.obj acc) = .ok (.obj (acc ++ fs)) := by
  intro fs
  induction fs with
  | nil =>
    intro acc _ _ _
    simp [flattenObj, mergeList]
  | cons kv fs ih =>
    obtain ⟨k, x⟩ := kv
    intro acc hmerge hfresh hnodup
    rw [nodupKeysB, Bool.and_eq_true] at hnodup
    rw [flattenObj]
    obtain ⟨q, qs, hq⟩ := List.exists_cons_of_ne_nil (flatten1_ne_nil x)
    have hx := hmerge (k, x) (List.mem_cons_self _ _)
    have hlk : lookupF acc k = none := hfresh (k, x) (List.mem_cons_self _ _)
    have hprem : mergeList (q :: qs) ((lookupF acc k).getD .null) = .ok x := by
      rw [hlk, ← hq]
      exact hx
    have hgrp := strip_key qs q acc k x hprem
    rw [hq, mergeList_append_ok hgrp (flattenObj fs)]
    rw [updateF_absent acc k x hlk]
    have hih := ih (acc ++ [(k, x)])
      (fun kv2 h2 => hmerge kv2 (List.mem_cons_of_mem _ h2))
      (fun kv2 h2 => lookupF_append_absent (hfresh kv2 (List.mem_cons_of_mem _ h2))
        (fun he => keyAbsent_mem hnodup.1 kv2 h2 he.symm) x)
      hnodup.2
    rw [hih, List.append_assoc]
    rfl

/-- Folding the statements of list elements over a partially built list
appends the elements. -/
theorem arr_fold :
    ∀ (xs : List Value) (acc : List Value),
      (∀ x ∈ xs, mergeList (flatten1 x) .null = .ok x) →
      mergeList (flattenArr acc.length xs) (.arr acc) = .ok (.arr (acc ++ xs)) := by
  intro xs
  induction xs with
  | nil =>
    intro acc _
    simp [flattenArr, mergeList]
  | cons x xs ih =>
    intro acc hmerge
    rw [flattenArr]
    obtain ⟨q, qs, hq⟩ := List.exists_cons_of_ne_nil (flatten1_ne_nil x)
    have hx := hmerge x (List.mem_cons_self _ _)
    have hprem : mergeList (q :: qs) (getIdx acc acc.length) = .ok x := by
      rw [getIdx_length, ← hq]
      exact hx
    have hgrp := strip_index qs q acc acc.length x hprem
    rw [hq, mergeList_append_ok hgrp (flattenArr (acc.length + 1) xs)]
    rw [setGrow_append]
    have hih := ih (acc ++ [x]) (fun y hy => hmerge y (List.mem_cons_of_mem _ hy))
    have hlen : (acc ++ [x]).length = acc.length + 1 := by simp
    rw [hlen] at hih
    rw [hih, List.append_assoc]
    rfl

/-- Merging the flattened statements of a well-formed value rebuilds the
value exactly (spec §8 round-trip, merge side). -/
theorem merge_flatten1 : ∀ v : Value, wfV v = true →
    mergeList (flatten1 v) .null = .ok v := by
  intro v
  induction v using Value.inductionOn with
  | hnull => intro _; simp [flatten1, mergeList, insertAt]
  | hbool => intro _; simp [flatten1, mergeList, insertAt]
  | hnum => intro _; simp [flatten1, mergeList, insertAt]
  | hstr => intro _; simp [flatten1, mergeList, insertAt]
  | harr xs ihx =>
    intro hwf
    rw [wfV] at hwf
    rw [flatten1, mergeList]
    have hstep : insertAt .null [] [] TVal.emptyArr = .ok (.arr []) := rfl
    rw [hstep]
    have := arr_fold xs [] (fun x hx2 => ihx x hx2 (wfArr_mem hwf x hx2))
    simpa using this
  | hobj fs ihf =>
    intro hwf
    rw [wfV, Bool.and_eq_true] at hwf
    rw [flatten1, mergeList]
    have hstep : insertAt .null [] [] TVal.emptyObj = .ok (.obj []) := rfl
    rw [hstep]
    have := obj_fold fs []
      (fun kv h2 => ihf kv h2 (wfObj_mem hwf.2 kv h2))
      (fun kv _ => rfl)
      hwf.1
    simpa using this

/-! ## Statement ordering (spec §4.5)

Element-wise path comparison: keys by codepoint order, indices
numerically, keys before indices at the same position, shorter strict
prefixes first; path ties broken by value kind
(EmptyObjectMarker < EmptyArrayMarker < scalar). -/

/-- Three-way comparison of naturals. -/
def natCmp (x y : Nat) : Ordering :=
  if x < y then .lt else if y < x then .gt else .eq

/-- Modelled from the spec: codepoint-wise comparison of key names
(spec §4.5). -/
def charsCmp : List Char → List Char → Ordering
  | [], [] => .eq
  | [], _ :: _ => .lt
  | _ :: _, [] => .gt
  | a :: as, b :: bs =>
    match natCmp a.toNat b.toNat with
    | .eq => charsCmp as bs
    | o => o

/-- Modelled from the spec: comparison of two path tokens (spec §4.5);
keys sort before indices. -/
def tokCmp : Tok → Tok → Ordering
  | .key a, .key b => charsCmp a.toList b.toList
  | .index i, .index j => natCmp i j
  | .key _, .index _ => .lt
  | .index _, .key _ => .gt

/-- Modelled from the spec: element-wise path comparison; a strict prefix
sorts first (spec §4.5).  Root tokens, present on every statement, always
compare equal and are not stored. -/
def pathCmp : List Tok → List Tok → Ordering
  | [], [] => .eq
  | [], _ :: _ => .lt
  | _ :: _, [] => .gt
  | a :: as, b :: bs =>
    match tokCmp a b with
    | .eq => pathCmp as bs
    | o => o

/-- Value-kind rank used to break path ties (spec §4.5). -/
def tvKind : TVal → Nat
  | .emptyObj => 0
  | .emptyArr => 1
  | _ => 2

/-- Modelled from the spec: the statement comparison of the forward
direction's sort (spec §4.5). -/
def stmtCmp (a b : Statement) : Ordering :=
  match pathCmp a.path b.path with
  | .eq => natCmp (tvKind a.val) (tvKind b.val)
  | o => o

/-- The "not greater" relation induced by `stmtCmp`; the sort orders by
it. -/
def stmtLe (a b : Statement) : Prop := ¬stmtCmp a b = .gt

instance : DecidableRel stmtLe := fun a b =>
  inferInstanceAs (Decidable ¬stmtCmp a b = .gt)

/-- The forward direction's optional sort step (`sort.Sort(ss)` in
`main.go`'s gron action; the comparison is spec §4.5). -/
def sortStatements (ss : List Statement) : List Statement :=
  ss.insertionSort stmtLe

theorem natCmp_eq {a b : Nat} : natCmp a b = .eq ↔ a = b := by
  unfold natCmp
  split
  · constructor
    · intro h; cases h
    · omega
  · split
    · constructor
      · intro h; cases h
      · omega
    · constructor
      · intro _; omega
      · intro _; rfl

theorem natCmp_swap (a b : Nat) : natCmp b a = (natCmp a b).swap := by
  unfold natCmp
  rcases Nat.lt_trichotomy a b with h | h | h
  · simp [h, Nat.lt_asymm h, Ordering.swap]
  · subst h
    simp [Nat.lt_irrefl, Ordering.swap]
  · simp [h, Nat.lt_asymm h, Ordering.swap]

theorem natCmp_lt_trans {a b c : Nat} (h1 : natCmp a b = .lt) (h2 : natCmp b c = .lt) :
    natCmp a c = .lt := by
  unfold natCmp at h1 h2 ⊢
  have ha : a < b := by
    by_contra h
    rw [if_neg h] at h1
    split at h1 <;> cases h1
  have hb : b < c := by
    by_contra h
    rw [if_neg h] at h2
    split at h2 <;> cases h2
  rw [if_pos (by omega)]

theorem char_toNat_inj {a b : Char} (h : a.toNat = b.toNat) : a = b :=
  Char.ext (UInt32.ext h)

theorem charsCmp_eq : ∀ {as bs : List Char}, charsCmp as bs = .eq ↔ as = bs := by
  intro as
  induction as with
  | nil =>
    intro bs
    cases bs <;> simp [charsCmp]
  | cons a as ih =>
    intro bs
    cases bs with
    | nil => simp [charsCmp]
    | cons b bs =>
      rw [charsCmp]
      cases hn : natCmp a.toNat b.toNat with
      | eq =>
        have hab : a = b := char_toNat_inj (natCmp_eq.mp hn)
        subst hab
        simp only
        rw [ih]
        constructor
        · intro h; rw [h]
        · intro h; cases h; rfl
      | lt =>
        simp only
        constructor
        · intro h; cases h
        · intro h
          injection h with h1 h2
          subst h1
          rw [natCmp_eq.mpr rfl] at hn
          cases hn
      | gt =>
        simp only
        constructor
        · intro h; cases h
        · intro h
          injection h with h1 h2
          subst h1
          rw [natCmp_eq.mpr rfl] at hn
          cases hn

theorem charsCmp_swap : ∀ (as bs : List Char), charsCmp bs as = (charsCmp as bs).swap := by
  intro as
  induction as with
  | nil =>
    intro bs
    cases bs <;> rfl
  | cons a as ih =>
    intro bs
    cases bs with
    | nil => rfl
    | cons b bs =>
      rw [charsCmp, charsCmp, natCmp_swap]
      cases natCmp a.toNat b.toNat with
      | eq => exact ih bs
      | lt => rfl
      | gt => rfl

theorem charsCmp_lt_trans : ∀ {as bs cs : List Char},
    charsCmp as bs = .lt → charsCmp bs cs = .lt → charsCmp as cs = .lt := by
  intro as
  induction as with
  | nil =>
    intro bs cs h1 h2
    cases bs with
    | nil => exact h2
    | cons b bs =>
      cases cs with
      | nil => cases h2
      | cons c cs => rfl
  | cons a as ih =>
    intro bs cs h1 h2
    cases bs with
    | nil => cases h1
    | cons b bs =>
      cases cs with
      | nil => cases h2
      | cons c cs =>
        rw [charsCmp] at h1 h2 ⊢
        cases hab : natCmp a.toNat b.toNat with
        | gt =>
          rw [hab] at h1
          cases h1
        | eq =>
          have hb : a = b := char_toNat_inj (natCmp_eq.mp hab)
          subst hb
          rw [hab] at h1
          simp only at h1
          cases hbc : natCmp a.toNat c.toNat with
          | gt =>
            rw [hbc] at h2
            cases h2
          | eq =>
            rw [hbc] at h2
            simp only at h2 ⊢
            exact ih h1 h2
          | lt => simp only
        | lt =>
          cases hbc : natCmp b.toNat c.toNat with
          | gt =>
            rw [hbc] at h2
            cases h2
          | eq =>
            have hc : b = c := char_toNat_inj (natCmp_eq.mp hbc)
            subst hc
            rw [hab]
          | lt =>
            rw [natCmp_lt_trans hab hbc]

theorem string_toList_inj {s t : String} (h : s.toList = t.toList) : s = t := by
  rw [← String.mk_toList s, ← String.mk_toList t, h]

theorem tokCmp_eq : ∀ {a b : Tok}, tokCmp a b = .eq ↔ a = b := by
  intro a b
  cases a with
  | key ka =>
    cases b with
    | key kb =>
      rw [tokCmp]
      constructor
      · intro h
        rw [string_toList_inj (charsCmp_eq.mp h)]
      · intro h
        cases h
        exact charsCmp_eq.mpr rfl
    | index j => simp [tokCmp]
  | index i =>
    cases b with
    | key kb => simp [tokCmp]
    | index j =>
      rw [tokCmp]
      constructor
      · intro h
        rw [natCmp_eq.mp h]
      · intro h
        cases h
        exact natCmp_eq.mpr rfl

theorem tokCmp_swap (a b : Tok) : tokCmp b a = (tokCmp a b).swap := by
  cases a <;> cases b <;> simp only [tokCmp]
  · exact charsCmp_swap _ _
  · rfl
  · rfl
  · exact natCmp_swap _ _

theorem tokCmp_lt_trans : ∀ {a b c : Tok},
    tokCmp a b = .lt → tokCmp b c = .lt → tokCmp a c = .lt := by
  intro a b c h1 h2
  cases a with
  | key ka =>
    cases c with
    | index j => rfl
    | key kc =>
      cases b with
      | key kb => exact charsCmp_lt_trans h1 h2
      | index i => exact absurd h2 (by simp [tokCmp])
  | index i =>
    cases b with
    | key kb => exact absurd h1 (by simp [tokCmp])
    | index j =>
      cases c with
      | key kc => exact absurd h2 (by simp [tokCmp])
      | index l =>
        rw [tokCmp] at h1 h2 ⊢
        exact natCmp_lt_trans h1 h2

theorem pathCmp_eq : ∀ {p q : List Tok}, pathCmp p q = .eq ↔ p = q := by
  intro p
  induction p with
  | nil =>
    intro q
    cases q <;> simp [pathCmp]
  | cons a as ih =>
    intro q
    cases q with
    | nil => simp [pathCmp]
    | cons b bs =>
      rw [pathCmp]
      cases hab : tokCmp a b with
      | eq =>
        have : a = b := tokCmp_eq.mp hab
        subst this
        simp only
        rw [ih]
        constructor
        · intro h
          rw [h]
        · intro h
          cases h
          rfl
      | lt =>
        simp only
        constructor
        · intro h
          cases h
        · intro h
          injection h with h3 h4
          subst h3
          rw [tokCmp_eq.mpr rfl] at hab
          cases hab
      | gt =>
        simp only
        constructor
        · intro h
          cases h
        · intro h
          injection h with h3 h4
          subst h3
          rw [tokCmp_eq.mpr rfl] at hab
          cases hab

theorem pathCmp_swap : ∀ (p q : List Tok), pathCmp q p = (pathCmp p q).swap := by
  intro p
  induction p with
  | nil =>
    intro q
    cases q <;> rfl
  | cons a as ih =>
    intro q
    cases q with
    | nil => rfl
    | cons b bs =>
      rw [pathCmp, pathCmp, tokCmp_swap]
      cases tokCmp a b with
      | eq => exact ih bs
      | lt => rfl
      | gt => rfl

theorem pathCmp_lt_trans : ∀ {p q r : List Tok},
    pathCmp p q = .lt → pathCmp q r = .lt → pathCmp p r = .lt := by
  intro p
  induction p with
  | nil =>
    intro q r h1 h2
    cases q with
    | nil => exact h2
    | cons b bs =>
      cases r with
      | nil => cases h2
      | cons c cs => rfl
  | cons a as ih =>
    intro q r h1 h2
    cases q with
    | nil => cases h1
    | cons b bs =>
      cases r with
      | nil => cases h2
      | cons c cs =>
        rw [pathCmp] at h1 h2 ⊢
        cases hab : tokCmp a b with
        | gt =>
          rw [hab] at h1
          cases h1
        | eq =>
          have hb : a = b := tokCmp_eq.mp hab
          subst hb
          rw [hab] at h1
          simp only at h1
          cases hbc : tokCmp a c with
          | gt =>
            rw [hbc] at h2
            cases h2
          | eq =>
            rw [hbc] at h2
            simp only at h2 ⊢
            exact ih h1 h2
          | lt => simp only
        | lt =>
          cases hbc : tokCmp b c with
          | gt =>
            rw [hbc] at h2
            cases h2
          | eq =>
            have hc : b = c := tokCmp_eq.mp hbc
            subst hc
            rw [hab]
          | lt =>
            rw [tokCmp_lt_trans hab hbc]

theorem natCmp_not_gt {a b : Nat} (h : ¬natCmp a b = .gt) : a ≤ b := by
  by_contra hlt
  apply h
  unfold natCmp
  rw [if_neg (by omega), if_pos (by omega)]

theorem natCmp_le_not_gt {a b : Nat} (h : a ≤ b) : ¬natCmp a b = .gt := by
  unfold natCmp
  split
  · intro hk
    cases hk
  · rw [if_neg (by omega)]
    intro hk
    cases hk

theorem stmtCmp_swap (a b : Statement) : stmtCmp b a = (stmtCmp a b).swap := by
  rw [stmtCmp, stmtCmp, pathCmp_swap]
  cases pathCmp a.path b.path with
  | eq => exact natCmp_swap _ _
  | lt => rfl
  | gt => rfl

theorem stmtLe_total (a b : Statement) : stmtLe a b ∨ stmtLe b a := by
  unfold stmtLe
  by_cases h : stmtCmp a b = .gt
  · right
    rw [stmtCmp_swap, h]
    intro h2
    cases h2
  · left
    exact h

theorem stmtLe_trans {a b c : Statement} (h1 : stmtLe a b) (h2 : stmtLe b c) :
    stmtLe a c := by
  unfold stmtLe at h1 h2 ⊢
  unfold stmtCmp at h1 h2 ⊢
  cases hab : pathCmp a.path b.path with
  | gt =>
    rw [hab] at h1
    exact absurd rfl h1
  | eq =>
    have hpab : a.path = b.path := pathCmp_eq.mp hab
    rw [hab] at h1
    simp only at h1
    cases hbc : pathCmp b.path c.path with
    | gt =>
      rw [hbc] at h2
      exact absurd rfl h2
    | eq =>
      have hpbc : b.path = c.path := pathCmp_eq.mp hbc
      rw [hbc] at h2
      simp only at h2
      rw [hpab, hpbc, pathCmp_eq.mpr rfl]
      simp only
      exact natCmp_le_not_gt (Nat.le_trans (natCmp_not_gt h1) (natCmp_not_gt h2))
    | lt =>
      rw [hpab, hbc]
      intro hk
      cases hk
  | lt =>
    cases hbc : pathCmp b.path c.path with
    | gt =>
      rw [hbc] at h2
      exact absurd rfl h2
    | eq =>
      have hpbc : b.path = c.path := pathCmp_eq.mp hbc
      rw [← hpbc, hab]
      intro hk
      cases hk
    | lt =>
      rw [pathCmp_lt_trans hab hbc]
      intro hk
      cases hk

instance : IsTotal Statement stmtLe := ⟨stmtLe_total⟩

instance : IsTrans Statement stmtLe := ⟨fun _ _ _ => stmtLe_trans⟩

/-- The sort produces a sorted sequence. -/
theorem sortStatements_sorted (ss : List Statement) :
    List.Sorted stmtLe (sortStatements ss) :=
  List.sorted_insertionSort stmtLe ss

/-- Sorting an already-sorted collection is the identity. -/
theorem sortStatements_sorted_eq {ss : List Statement}
    (h : List.Sorted stmtLe ss) : sortStatements ss = ss :=
  h.insertionSort_eq

/-- The sort is idempotent. -/
theorem sortStatements_idem (ss : List Statement) :
    sortStatements (sortStatements ss) = sortStatements ss :=
  sortStatements_sorted_eq (sortStatements_sorted ss)

/-! ## Shape facts about flattener output: paths are pairwise distinct and
value tokens inherit well-formedness. -/

theorem flattenArr_shape : ∀ (xs : List Value) (i : Nat) (s : Statement),
    s ∈ flattenArr i xs →
      ∃ j q x s0, s.path = Tok.index j :: q ∧ i ≤ j ∧ x ∈ xs ∧
        s0 ∈ flatten1 x ∧ s.val = s0.val := by
  intro xs
  induction xs with
  | nil =>
    intro i s hs
    simp [flattenArr] at hs
  | cons x xs ih =>
    intro i s hs
    rw [flattenArr] at hs
    rcases List.mem_append.mp hs with h1 | h1
    · obtain ⟨s0, hs0, heq⟩ := List.mem_map.mp h1
      refine ⟨i, s0.path, x, s0, ?_, Nat.le_refl i, List.mem_cons_self _ _, hs0, ?_⟩
      · rw [← heq]
      · rw [← heq]
    · obtain ⟨j, q, x2, s0, hpath, hij, hx2, hs0, hval⟩ := ih (i + 1) s h1
      exact ⟨j, q, x2, s0, hpath, by omega, List.mem_cons_of_mem _ hx2, hs0, hval⟩

theorem flattenObj_shape : ∀ (fs : List (String × Value)) (s : Statement),
    s ∈ flattenObj fs →
      ∃ k q x s0, s.path = Tok.key k :: q ∧ (k, x) ∈ fs ∧
        s0 ∈ flatten1 x ∧ s.val = s0.val := by
  intro fs
  induction fs with
  | nil =>
    intro s hs
    simp [flattenObj] at hs
  | cons kv fs ih =>
    obtain ⟨k, x⟩ := kv
    intro s hs
    rw [flattenObj] at hs
    rcases List.mem_append.mp hs with h1 | h1
    · obtain ⟨s0, hs0, heq⟩ := List.mem_map.mp h1
      refine ⟨k, s0.path, x, s0, ?_, List.mem_cons_self _ _, hs0, ?_⟩
      · rw [← heq]
      · rw [← heq]
    · obtain ⟨k2, q, x2, s0, hpath, hmem, hs0, hval⟩ := ih s h1
      exact ⟨k2, q, x2, s0, hpath, List.mem_cons_of_mem _ hmem, hs0, hval⟩

theorem cons_injective {α : Type} (a : α) :
    Function.Injective (List.cons a) := by
  intro p q h
  injection h

theorem flattenArr_paths_nodup : ∀ (xs : List Value) (i : Nat),
    (∀ x ∈ xs, ((flatten1 x).map Statement.path).Nodup) →
    ((flattenArr i xs).map Statement.path).Nodup := by
  intro xs
  induction xs with
  | nil =>
    intro i _
    simp [flattenArr]
  | cons x xs ih =>
    intro i hnd
    rw [flattenArr, List.map_append]
    apply List.Nodup.append
    · rw [List.map_map]
      have h2 : (Statement.path ∘ fun s => (⟨Tok.index i :: s.path, s.val⟩ : Statement)) =
          (List.cons (Tok.index i)) ∘ Statement.path := rfl
      rw [h2, ← List.map_map]
      exact (hnd x (List.mem_cons_self _ _)).map (cons_injective _)
    · exact ih (i + 1) (fun y hy => hnd y (List.mem_cons_of_mem _ hy))
    · rw [List.disjoint_left]
      intro p hp hp2
      rw [List.map_map] at hp
      obtain ⟨s0, hs0, heq⟩ := List.mem_map.mp hp
      obtain ⟨s2, hs2, heq2⟩ := List.mem_map.mp hp2
      obtain ⟨j, q, x2, s3, hpath, hij, _, _, _⟩ := flattenArr_shape xs (i + 1) s2 hs2
      rw [hpath] at heq2
      rw [← heq2] at heq
      simp only [Function.comp] at heq
      injection heq with h3 h4
      injection h3 with h5
      omega

theorem flattenObj_paths_nodup : ∀ (fs : List (String × Value)),
    (∀ kv ∈ fs, ((flatten1 kv.2).map Statement.path).Nodup) →
    nodupKeysB fs = true →
    ((flattenObj fs).map Statement.path).Nodup := by
  intro fs
  induction fs with
  | nil =>
    intro _ _
    simp [flattenObj]
  | cons kv fs ih =>
    obtain ⟨k, x⟩ := kv
    intro hnd hkeys
    rw [nodupKeysB, Bool.and_eq_true] at hkeys
    rw [flattenObj, List.map_append]
    apply List.Nodup.append
    · rw [List.map_map]
      have h2 : (Statement.path ∘ fun s => (⟨Tok.key k :: s.path, s.val⟩ : Statement)) =
          (List.cons (Tok.key k)) ∘ Statement.path := rfl
      rw [h2, ← List.map_map]
      exact (hnd (k, x) (List.mem_cons_self _ _)).map (cons_injective _)
    · exact ih (fun kv2 h2 => hnd kv2 (List.mem_cons_of_mem _ h2)) hkeys.2
    · rw [List.disjoint_left]
      intro p hp hp2
      rw [List.map_map] at hp
      obtain ⟨s0, hs0, heq⟩ := List.mem_map.mp hp
      obtain ⟨s2, hs2, heq2⟩ := List.mem_map.mp hp2
      obtain ⟨k2, q, x2, s3, hpath, hmem, _, _⟩ := flattenObj_shape fs s2 hs2
      rw [hpath] at heq2
      rw [← heq2] at heq
      simp only [Function.comp] at heq
      injection heq with h3 h4
      injection h3 with h5
      exact keyAbsent_mem hkeys.1 (k2, x2) hmem h5.symm

/-- Paths in the flattener output of a well-formed value are pairwise
distinct. -/
theorem flatten1_paths_nodup : ∀ (v : Value), wfV v = true →
    ((flatten1 v).map Statement.path).Nodup := by
  intro v
  induction v using Value.inductionOn with
  | hnull => intro _; simp [flatten1]
  | hbool b => intro _; simp [flatten1]
  | hnum s => intro _; simp [flatten1]
  | hstr s => intro _; simp [flatten1]
  | harr xs ihx =>
    intro hwf
    rw [wfV] at hwf
    rw [flatten1, List.map_cons]
    apply List.Nodup.cons
    · intro hmem
      obtain ⟨s2, hs2, heq2⟩ := List.mem_map.mp hmem
      obtain ⟨j, q, x2, s3, hpath, _, _, _, _⟩ := flattenArr_shape xs 0 s2 hs2
      rw [hpath] at heq2
      cases heq2
    · exact flattenArr_paths_nodup xs 0
        (fun x hx2 => ihx x hx2 (wfArr_mem hwf x hx2))
  | hobj fs ihf =>
    intro hwf
    rw [wfV, Bool.and_eq_true] at hwf
    rw [flatten1, List.map_cons]
    apply List.Nodup.cons
    · intro hmem
      obtain ⟨s2, hs2, heq2⟩ := List.mem_map.mp hmem
      obtain ⟨k2, q, x2, s3, hpath, _, _, _⟩ := flattenObj_shape fs s2 hs2
      rw [hpath] at heq2
      cases heq2
    · exact flattenObj_paths_nodup fs
        (fun kv h2 => ihf kv h2 (wfObj_mem hwf.2 kv h2)) hwf.1

/-- The comparison is antisymmetric on the statements of a single input:
their paths are pairwise distinct. -/
theorem flatten_antisymm (v : Value) (hwf : wfV v = true) :
    ∀ a ∈ flatten1 v, ∀ b ∈ flatten1 v, stmtLe a b → stmtLe b a → a = b := by
  intro a ha b hb h1 h2
  have hcmp : stmtCmp a b = .eq := by
    cases hc : stmtCmp a b with
    | eq => rfl
    | lt =>
      exfalso
      apply h2
      rw [stmtCmp_swap, hc]
      rfl
    | gt => exact absurd hc h1
  have hpath : a.path = b.path := by
    unfold stmtCmp at hcmp
    cases hp : pathCmp a.path b.path with
    | eq => exact pathCmp_eq.mp hp
    | lt =>
      rw [hp] at hcmp
      cases hcmp
    | gt =>
      rw [hp] at hcmp
      cases hcmp
  exact List.inj_on_of_nodup_map (flatten1_paths_nodup v hwf) ha hb hpath

/-- Every statement of a well-formed value carries a well-formed value
token. -/
theorem stmts_wf : ∀ (v : Value), wfV v = true →
    ∀ s ∈ flatten1 v, tvWF s.val = true := by
  intro v
  induction v using Value.inductionOn with
  | hnull =>
    intro _ s hs
    simp [flatten1] at hs
    subst hs
    rfl
  | hbool b =>
    intro _ s hs
    simp [flatten1] at hs
    subst hs
    rfl
  | hstr s0 =>
    intro _ s hs
    simp [flatten1] at hs
    subst hs
    rfl
  | hnum s0 =>
    intro hwf s hs
    rw [wfV] at hwf
    simp [flatten1] at hs
    subst hs
    rw [tvWF]
    exact hwf
  | harr xs ihx =>
    intro hwf s hs
    rw [wfV] at hwf
    rw [flatten1] at hs
    rcases List.mem_cons.mp hs with h1 | h1
    · subst h1
      rfl
    · obtain ⟨j, q, x, s0, _, _, hx, hs0, hval⟩ := flattenArr_shape xs 0 s h1
      rw [hval]
      exact ihx x hx (wfArr_mem hwf x hx) s0 hs0
  | hobj fs ihf =>
    intro hwf s hs
    rw [wfV, Bool.and_eq_true] at hwf
    rw [flatten1] at hs
    rcases List.mem_cons.mp hs with h1 | h1
    · subst h1
      rfl
    · obtain ⟨k, q, x, s0, _, hmem, hs0, hval⟩ := flattenObj_shape fs s h1
      rw [hval]
      exact ihf (k, x) hmem (wfObj_mem hwf.2 (k, x) hmem) s0 hs0

/-! ## The reverse-direction action (`ungron` in `main.go`) and its
spec-modelled core. -/

/-- Embedded from `main.go` (lines 205-213): if there is only one top
level key and it is `"json"`, make that the top level thing. -/
def unwrapRoot (v : Value) : Value :=
  match v with
  | .obj fs =>
    if fs.length = 1 then
      match lookupF fs "json" with
      | some x => x
      | none => .obj fs
    else .obj fs
  | _ => v

/-- Modelled from the spec: per-line ingestion of the reverse direction
(spec §4.3/§6/§7) — every line is attempted; successfully parsed
statements are kept in input order and the failures are collected, in
input order, instead of aborting at the first bad line.  This models the
statement-collection builder called from `ungron` in `main.go`, whose
source file is not part of the tree. -/
def ingest : List String → List Statement × List String
  | [] => ([], [])
  | l :: ls =>
    let r := ingest ls
    match parseStatement l with
    | .ok s => (s :: r.1, r.2)
    | .error e => (r.1, e :: r.2)

/-- Failure of the reverse-direction core: either some lines failed to
parse (reported collectively, spec §7) or the merge found a structural
conflict. -/
inductive UngronErr where
  | parseFailures (lines : List String)
  | mergeFailure (e : MergeErr)
deriving DecidableEq

/-- Modelled from the spec: the reverse-direction core called by `ungron`
(`ss.toInterface()` in `main.go`, source file not in the tree): parse
every line, report all parse failures together after attempting all
lines (spec §7), otherwise merge in input order (spec §4.4). -/
def toInterface (lines : List String) : Except UngronErr Value :=
  let r := ingest lines
  if r.2.isEmpty then
    match mergeStatements r.1 with
    | .ok v => .ok v
    | .error e => .error (.mergeFailure e)
  else .error (.parseFailures r.2)

/-- What an action run produced: the exit code and the bytes written to
the output writer. -/
structure ActionResult where
  exitCode : Nat
  output : String
deriving DecidableEq

/-- Embedded from `main.go` `ungron` (lines 186-236).  `encode` stands for
the external JSON encoder (`json.MarshalIndent`); `readErr` models a
scanner read failure; colorization is a fallback-safe post-process and is
omitted (monochrome path).  The single write to the output writer is the
final `Fprintf`; every failure path returns before it. -/
def ungronAction (encode : Value → Except String String) (readErr : Bool)
    (lines : List String) : ActionResult :=
  if readErr then ⟨exitReadInput, ""⟩
  else
    match toInterface lines with
    | .error _ => ⟨exitParseStatements, ""⟩
    | .ok merged =>
      match encode (unwrapRoot merged) with
      | .error _ => ⟨exitJSONEncode, ""⟩
      | .ok j => ⟨exitOK, j ++ "\n"⟩

theorem parseStatement_error {l e : String} (h : parseStatement l = .error e) :
    e = l := by
  rw [parseStatement] at h
  cases hp : parseChars l.toList with
  | some s =>
    rw [hp] at h
    cases h
  | none =>
    rw [hp] at h
    injection h with h1
    exact h1.symm

/-- Every line is attempted: the collected failures are exactly the
unparseable lines, in input order, and the kept statements are exactly
the parses of the parseable lines, in input order. -/
theorem ingest_spec (lines : List String) :
    (ingest lines).1 = lines.filterMap (fun l => (parseStatement l).toOption) ∧
      (ingest lines).2 = lines.filter (fun l => ¬(parseStatement l).isOk) := by
  induction lines with
  | nil => exact ⟨rfl, rfl⟩
  | cons l ls ih =>
    rw [ingest]
    cases hp : parseStatement l with
    | ok s =>
      simp [hp, Except.toOption, Except.isOk, Except.toBool, List.filterMap_cons,
        List.filter_cons, ih.1, ih.2]
    | error e =>
      simp [hp, Except.toOption, Except.isOk, Except.toBool, List.filterMap_cons,
        List.filter_cons, ih.1, ih.2]
      exact parseStatement_error hp

/-! ## Remaining helpers for the claims. -/

/-- Rendering then ingesting well-formed statements loses nothing. -/
theorem ingest_all_ok : ∀ (ss : List Statement), (∀ s ∈ ss, tvWF s.val = true) →
    ingest (ss.map renderStatement) = (ss, []) := by
  intro ss
  induction ss with
  | nil => intro _; rfl
  | cons s ss ih =>
    intro h
    rw [List.map_cons, ingest, parseStatement_render s (h s (List.mem_cons_self _ _)),
      ih (fun t ht => h t (List.mem_cons_of_mem _ ht))]

/-- A strict prefix compares less than any extension of it. -/
theorem pathCmp_prefix : ∀ (p q : List Tok), ¬q = [] → pathCmp p (p ++ q) = .lt := by
  intro p
  induction p with
  | nil =>
    intro q hq
    cases q with
    | nil => exact absurd rfl hq
    | cons c cs => rfl
  | cons a as ih =>
    intro q hq
    rw [List.cons_append, pathCmp, tokCmp_eq.mpr rfl]
    exact ih q hq

/-! ## The claims. -/

/-- C1: For every JSON value `v` representable in the Value Model,
flattening `v` to statements, rendering each statement to text, parsing
each rendered line back to a statement, and merging the resulting
sequence yields a value structurally equal to `v` — here even equal on
the nose, which implies equality of mapping key sets and list contents.
The first conjunct is the composed pipeline (the reverse-direction core
applied to the rendered lines); the others expose the two halves:
ingestion recovers exactly the flattened statements with no failures, and
the merge rebuilds `v`. -/
theorem c1_round_trip (v : Value) (h : wfV v = true) :
    toInterface ((flatten1 v).map renderStatement) = .ok v ∧
      ingest ((flatten1 v).map renderStatement) = (flatten1 v, []) ∧
      mergeStatements (flatten1 v) = .ok v := by
  have hi := ingest_all_ok (flatten1 v) (stmts_wf v h)
  have hm := merge_flatten1 v h
  refine ⟨?_, hi, hm⟩
  rw [toInterface]
  simp only [hi, List.isEmpty_nil, if_true]
  rw [show mergeStatements (flatten1 v) = .ok v from hm]

theorem c1_round_trip_witness :
    wfV (Value.obj [("a", Value.arr [Value.null])]) = true ∧
      toInterface ((flatten1 (Value.obj [("a", Value.arr [Value.null])])).map
          renderStatement) =
        .ok (Value.obj [("a", Value.arr [Value.null])]) := by
  have hwf : wfV (Value.obj [("a", Value.arr [Value.null])]) = true := by
    simp [wfV, wfObj, wfArr, nodupKeysB, keyAbsent]
  exact ⟨hwf, (c1_round_trip _ hwf).1⟩

/-- C2: During reverse-direction ingestion, a parse failure on one input
line does not abort processing of the remaining lines: the kept
statements are exactly the parses of the parseable lines and the
collected failures are exactly the unparseable lines, both in input
order across the whole input, and when any line failed the reverse core
reports all collected failures together. -/
theorem c2_failures_collected (lines : List String) :
    (ingest lines).1 = lines.filterMap (fun l => (parseStatement l).toOption) ∧
      (ingest lines).2 = lines.filter (fun l => ¬(parseStatement l).isOk) ∧
      (¬(ingest lines).2 = [] →
        toInterface lines = .error (.parseFailures (ingest lines).2)) := by
  refine ⟨(ingest_spec lines).1, (ingest_spec lines).2, ?_⟩
  intro hbad
  have hcond : ¬((ingest lines).2.isEmpty = true) := by
    cases hh : (ingest lines).2 with
    | nil => exact absurd hh hbad
    | cons a l => simp
  simp only [toInterface]
  rw [if_neg hcond]

theorem c2_failures_collected_witness :
    ¬(ingest ["?"]).2 = [] ∧
      toInterface ["?"] = .error (.parseFailures (ingest ["?"]).2) := by
  have hbad : ¬(ingest ["?"]).2 = [] := by
    simp [ingest, parseStatement, parseChars, isWS, isBareChar, Char.isAlphanum,
      Char.isAlpha, Char.isDigit]
  exact ⟨hbad, (c2_failures_collected ["?"]).2.2 hbad⟩

/-- C3: After merging all statements, the ungron action unwraps the
result if and only if the final merged value is a mapping with exactly
one field whose name equals the root token's name `"json"`: then the
output is that field's value; a mapping with more than one field (or
none), or whose single field has any other name, and any non-mapping, is
left unchanged.  The last conjunct ties this to the action: on a
successful merge the action encodes exactly `unwrapRoot` of the merged
value. -/
theorem c3_root_unwrap :
    (∀ x : Value, unwrapRoot (.obj [("json", x)]) = x) ∧
      (∀ fs : List (String × Value), (¬∃ x, fs = [("json", x)]) →
        unwrapRoot (.obj fs) = .obj fs) ∧
      (∀ v : Value, (∀ fs, ¬v = .obj fs) → unwrapRoot v = v) ∧
      (∀ (encode : Value → Except String String) (lines : List String) (v : Value),
        toInterface lines = .ok v →
        ungronAction encode false lines =
          match encode (unwrapRoot v) with
          | .ok j => ⟨exitOK, j ++ "\n"⟩
          | .error _ => ⟨exitJSONEncode, ""⟩) := by
  refine ⟨fun x => rfl, ?_, ?_, ?_⟩
  · intro fs hne
    match fs with
    | [] => rfl
    | [(k, x)] =>
      rw [unwrapRoot]
      simp only [List.length_singleton, if_true]
      have hk : ¬k = "json" := by
        intro he
        exact hne ⟨x, by rw [he]⟩
      rw [lookupF, if_neg hk, lookupF]
    | (k1, x1) :: (k2, x2) :: fs2 =>
      rw [unwrapRoot]
      rw [if_neg (by simp)]
  · intro v hv
    cases v with
    | obj fs => exact absurd rfl (hv fs)
    | null => rfl
    | bool b => rfl
    | num s => rfl
    | str s => rfl
    | arr xs => rfl
  · intro encode lines v hok
    cases he : encode (unwrapRoot v) with
    | ok j =>
      rw [ungronAction]
      simp only [Bool.false_eq_true, if_false, hok, he]
    | error msg =>
      rw [ungronAction]
      simp only [Bool.false_eq_true, if_false, hok, he]

theorem c3_root_unwrap_witness :
    (¬∃ x, ([("a", Value.null)] : List (String × Value)) = [("json", x)]) ∧
      unwrapRoot (.obj [("a", Value.null)]) = .obj [("a", Value.null)] := by
  have hne : ¬∃ x, ([("a", Value.null)] : List (String × Value)) = [("json", x)] := by
    intro ⟨x, hx⟩
    simp at hx
  exact ⟨hne, c3_root_unwrap.2.1 [("a", Value.null)] hne⟩

/-- C4: Merging the statement `root.a = 1;` followed by `root.a[0] = 2;`
(a scalar assignment to a path, then an index token applied to that same
path) fails with a type-mismatch condition naming the offending path
`root.a` — the reported token path `[key "a"]` below the implicit root —
rather than succeeding or silently overwriting.  The parse conjuncts
check that the two quoted lines denote exactly these statements. -/
theorem c4_conflict_detection :
    parseStatement "root.a = 1;" = .ok ⟨[Tok.key "a"], TVal.num "1"⟩ ∧
      parseStatement "root.a[0] = 2;" =
        .ok ⟨[Tok.key "a", Tok.index 0], TVal.num "2"⟩ ∧
      mergeStatements
          [⟨[Tok.key "a"], TVal.num "1"⟩, ⟨[Tok.key "a", Tok.index 0], TVal.num "2"⟩] =
        .error (.typeMismatchOnIndex [Tok.key "a"]) := by
  refine ⟨?_, ?_, rfl⟩
  · simp [parseStatement, parseChars, parseSegs, parseSeg1, parseTVal, isWS,
      isBareChar, isBareStart, isDigitC, isNumChar, isJsonNumber, jnInt, jnFrac,
      jnExp, digitsToNat, Char.isAlphanum, Char.isAlpha, Char.isDigit]
  · simp [parseStatement, parseChars, parseSegs, parseSeg1, parseTVal, isWS,
      isBareChar, isBareStart, isDigitC, isNumChar, isJsonNumber, jnInt, jnFrac,
      jnExp, digitsToNat, Char.isAlphanum, Char.isAlpha, Char.isDigit]

/-- C5: Merging the single statement `root.list[2] = "x";`, with no
statements for indices 0 or 1, yields a list of length exactly 3 at path
root.list whose elements at indices 0 and 1 are Null and whose element
at index 2 is the string `"x"`. -/
theorem c5_array_growth :
    parseStatement "root.list[2] = \"x\";" =
        .ok ⟨[Tok.key "list", Tok.index 2], TVal.str "x"⟩ ∧
      mergeStatements [⟨[Tok.key "list", Tok.index 2], TVal.str "x"⟩] =
        .ok (.obj [("list", .arr [.null, .null, .str "x"])]) ∧
      getIdx [Value.null, Value.null, Value.str "x"] 0 = .null ∧
      getIdx [Value.null, Value.null, Value.str "x"] 1 = .null ∧
      getIdx [Value.null, Value.null, Value.str "x"] 2 = .str "x" ∧
      [Value.null, Value.null, Value.str "x"].length = 3 := by
  refine ⟨?_, rfl, rfl, rfl, rfl, rfl⟩
  simp [parseStatement, parseChars, parseSegs, parseSeg1, parseTVal, parseJString,
    isWS, isBareChar, isBareStart, isDigitC, isNumChar, isJsonNumber, jnInt,
    jnFrac, jnExp, digitsToNat, Char.isAlphanum, Char.isAlpha, Char.isDigit]

/-- C6: The statement comparison used by the forward-direction sort is a
total order over the statements produced from any single input —
antisymmetric on them (their paths are pairwise distinct) and transitive
everywhere — and sorting an already-sorted Statement Collection yields an
identical sequence; the sort is idempotent. -/
theorem c6_sort_total_order (v : Value) (h : wfV v = true) :
    (∀ a ∈ flatten1 v, ∀ b ∈ flatten1 v, stmtLe a b → stmtLe b a → a = b) ∧
      (∀ a b c : Statement, stmtLe a b → stmtLe b c → stmtLe a c) ∧
      (∀ a b : Statement, stmtLe a b ∨ stmtLe b a) ∧
      (∀ ss : List Statement, List.Sorted stmtLe ss → sortStatements ss = ss) ∧
      (∀ ss : List Statement,
        sortStatements (sortStatements ss) = sortStatements ss) :=
  ⟨flatten_antisymm v h, fun _ _ _ => stmtLe_trans, stmtLe_total,
    fun _ h2 => sortStatements_sorted_eq h2, sortStatements_idem⟩

theorem c6_sort_total_order_witness :
    wfV Value.null = true ∧
      sortStatements (sortStatements []) = sortStatements [] := by
  have hwf : wfV Value.null = true := by simp [wfV]
  exact ⟨hwf, (c6_sort_total_order Value.null hwf).2.2.2.2 []⟩

/-- C7: When comparing two statements' paths element-wise, index tokens
compare numerically — not lexically as digit strings: index 10 sorts
after index 2 although the digit string "10" sorts before "2" — a key
token sorts before an index token at the same position, and when one
path is a strict prefix of the other the shorter path sorts first. -/
theorem c7_path_order :
    (∀ i j : Nat, tokCmp (.index i) (.index j) = natCmp i j) ∧
      (tokCmp (.index 10) (.index 2) = .gt ∧
        charsCmp ['1', '0'] ['2'] = .lt) ∧
      (∀ k i, tokCmp (.key k) (.index i) = .lt) ∧
      (∀ p q : List Tok, ¬q = [] → pathCmp p (p ++ q) = .lt) := by
  refine ⟨fun i j => rfl, ⟨by decide, by decide⟩, fun k i => rfl, pathCmp_prefix⟩

theorem c7_path_order_witness :
    ¬([Tok.index 0] : List Tok) = [] ∧
      pathCmp [] ([] ++ [Tok.index 0]) = .lt := by
  refine ⟨by simp, c7_path_order.2.2.2 [] [Tok.index 0] (by simp)⟩

/-- C8: For every statement produced by the flattener from a well-formed
value, parsing the canonical rendered text of the statement yields the
statement back: parse is a left inverse of render on flattener output. -/
theorem c8_render_parse_inverse (v : Value) (h : wfV v = true) :
    ∀ s ∈ flatten1 v, parseStatement (renderStatement s) = .ok s :=
  fun s hs => parseStatement_render s (stmts_wf v h s hs)

theorem c8_render_parse_inverse_witness :
    wfV Value.null = true ∧
      parseStatement (renderStatement ⟨[], TVal.null⟩) = .ok ⟨[], TVal.null⟩ := by
  have hwf : wfV Value.null = true := by simp [wfV]
  refine ⟨hwf, c8_render_parse_inverse Value.null hwf ⟨[], TVal.null⟩ ?_⟩
  simp [flatten1]

/-- C9: The statement parser accepts `{}` and `[]` on the value side only
as literal two-character empty-container markers, and rejects as
malformed any line whose value is a non-empty container literal, such as
`{"x":{}}` or `[1]` — every accepted statement carries exactly one scalar
leaf or one empty-container declaration. -/
theorem c9_marker_literals :
    parseStatement "json = \x7b\x7d;" = .ok ⟨[], TVal.emptyObj⟩ ∧
      parseStatement "json = [];" = .ok ⟨[], TVal.emptyArr⟩ ∧
      parseStatement "json = \x7b\"x\":\x7b\x7d\x7d;" =
        .error "json = \x7b\"x\":\x7b\x7d\x7d;" ∧
      parseStatement "json = [1];" = .error "json = [1];" := by
  refine ⟨?hobj, ?harr, ?hnest, ?hlist⟩
  all_goals
    simp [parseStatement, parseChars, parseSegs, parseSeg1, parseTVal, parseJString,
      isWS, isBareChar, isBareStart, isDigitC, isNumChar, isJsonNumber, jnInt,
      jnFrac, jnExp, digitsToNat, Char.isAlphanum, Char.isAlpha, Char.isDigit]

/-- C10: The ungron action writes to its output writer only on success:
on every failure path — input read error, statement parse/merge error,
or JSON encoding error — it returns the corresponding nonzero exit code
without having written any bytes to the output. -/
theorem c10_no_partial_output (encode : Value → Except String String)
    (readErr : Bool) (lines : List String) :
    (readErr = true → ungronAction encode readErr lines = ⟨exitReadInput, ""⟩) ∧
      (∀ e, toInterface lines = .error e → readErr = false →
        ungronAction encode readErr lines = ⟨exitParseStatements, ""⟩) ∧
      (∀ v, toInterface lines = .ok v → readErr = false →
        ∀ msg, encode (unwrapRoot v) = .error msg →
          ungronAction encode readErr lines = ⟨exitJSONEncode, ""⟩) ∧
      (¬(ungronAction encode readErr lines).exitCode = exitOK →
        (ungronAction encode readErr lines).output = "") ∧
      (¬exitReadInput = exitOK ∧ ¬exitParseStatements = exitOK ∧
        ¬exitJSONEncode = exitOK) := by
  refine ⟨?p1, ?p2, ?p3, ?p4, by decide, by decide, by decide⟩
  · intro hr
    rw [ungronAction, if_pos hr]
  · intro e he hr
    subst hr
    rw [ungronAction, if_neg (by simp), he]
  · intro v hv hr msg hmsg
    subst hr
    rw [ungronAction, if_neg (by simp), hv]
    simp only [hmsg]
  · intro hne
    cases readErr with
    | true =>
      rw [ungronAction] at hne ⊢
      rfl
    | false =>
      cases ht : toInterface lines with
      | error e =>
        rw [ungronAction]
        simp only [Bool.false_eq_true, if_false, ht]
      | ok v =>
        cases he : encode (unwrapRoot v) with
        | error msg =>
          rw [ungronAction]
          simp only [Bool.false_eq_true, if_false, ht, he]
        | ok j =>
          exfalso
          apply hne
          rw [ungronAction]
          simp only [Bool.false_eq_true, if_false, ht, he]

theorem c10_no_partial_output_witness :
    toInterface ([] : List String) = .ok Value.null ∧
      (fun _ : Value => (Except.error "boom" : Except String String)) (unwrapRoot Value.null) =
        .error "boom" ∧
      ungronAction (fun _ => .error "boom") false [] = ⟨exitJSONEncode, ""⟩ :=
  ⟨rfl, rfl,
    (c10_no_partial_output (fun _ => .error "boom") false []).2.2.1 Value.null rfl rfl
      "boom" rfl⟩

end Gron
